import Mathlib

/-!
Verification development for the ant-3d repository (src/ant.py, src/main.py).

The Python `Environment` stores cells as nested `defaultdict`s
(`self._cells = defaultdict(lambda: defaultdict(lambda: defaultdict(dict)))`).
Python dictionaries are insertion-ordered maps, modelled here as association
lists.  A crucial behaviour of `defaultdict` is that *subscripting materializes
the default*: `self._cells[x][y][z]` creates (and stores) empty intermediate
dictionaries when the keys are absent.  Hence even pure reads mutate the
internal state of the environment (they insert empty cells), although they
never change the value returned by any later read.  The embedding reproduces
this faithfully: read operations return both the value and the updated
environment.

Python dict keys are heterogeneous; the grid key components are modelled by
`Comp`, which covers the integer coordinates and string pheromone names that
the program uses.
-/

/-- Model of a Python dict key component: an integer coordinate or a string
(pheromone name). -/
inductive Comp where
  | i : ℤ → Comp
  | s : String → Comp
deriving DecidableEq

/-- Model of `dict.get(k)`: the first binding of key `k` in an association
list, if any. -/
def alGet {κ α : Type} [DecidableEq κ] : List (κ × α) → κ → Option α
  | [], _ => none
  | (k0, v0) :: t, k => if k = k0 then some v0 else alGet t k

/-- Model of `d[k] = v` on a Python dict: replace the value of an existing key
in place (keeping its position), otherwise append the new binding at the end. -/
def alSet {κ α : Type} [DecidableEq κ] : List (κ × α) → κ → α → List (κ × α)
  | [], k, v => [(k, v)]
  | (k0, v0) :: t, k, v => if k = k0 then (k0, v) :: t else (k0, v0) :: alSet t k v

/-- Model of `defaultdict.__getitem__` followed by an in-place update of the
returned reference: get-or-create the value at `k` (with default `d`) and
apply `f` to it. -/
def ddUpd {κ α : Type} [DecidableEq κ] (l : List (κ × α)) (k : κ) (f : α → α) (d : α) :
    List (κ × α) :=
  match alGet l k with
  | some v => alSet l k (f v)
  | none => l ++ [(k, f d)]

/-- A cell of the environment: the innermost dict, pheromone name to value.
Pheromone values are numbers; they are modelled as rationals. -/
abbrev Cell := List (Comp × ℚ)

instance instDecEqCell : DecidableEq Cell := inferInstance

instance instDecEqM1 : DecidableEq (List (Comp × Cell)) := inferInstance

instance instDecEqM2 : DecidableEq (List (Comp × List (Comp × Cell))) := inferInstance

instance instDecEqM3 : DecidableEq (List (Comp × List (Comp × List (Comp × Cell)))) :=
  inferInstance

/-- The `Environment` class of src/ant.py: `_cells` is the nested defaultdict
`x -> y -> z -> (phero -> value)`. -/
structure Environment where
  cells : List (Comp × List (Comp × List (Comp × Cell)))
deriving DecidableEq

/-- The freshly constructed environment (`Environment.__init__`). -/
def emptyEnv : Environment := ⟨[]⟩

/-- The cell reached by `self._cells[x][y][z]`, as a value: absent dictionaries
read as the empty default. -/
def Environment.getCell (e : Environment) (x y z : Comp) : Cell :=
  (alGet ((alGet ((alGet e.cells x).getD []) y).getD []) z).getD []

/-- The state change performed by evaluating `self._cells[x][y][z]`: each
`defaultdict` subscript materializes an empty default entry when the key is
absent. -/
def Environment.materialize (e : Environment) (x y z : Comp) : Environment :=
  ⟨ddUpd e.cells x (fun m2 => ddUpd m2 y (fun m1 => ddUpd m1 z id []) []) []⟩

/-- Body of `Environment.__getitem__` for a well-formed 4-component key:
`self._cells[x][y][z].get(phero)`, returning the value and the (possibly
materialized) new state. -/
def Environment.get4 (e : Environment) (x y z p : Comp) : Option ℚ × Environment :=
  (alGet (e.getCell x y z) p, e.materialize x y z)

/-- Body of `Environment.__getitem__` for a well-formed 3-component key:
`self._cells[x][y][z] or None`, returning the cell (with the empty dict
collapsed to `None`, since `{}` is falsy) and the new state. -/
def Environment.get3 (e : Environment) (x y z : Comp) : Option Cell × Environment :=
  (if e.getCell x y z = [] then none else some (e.getCell x y z), e.materialize x y z)

/-- Body of `Environment.__setitem__` for a well-formed key:
`self._cells[x][y][z][phero] = value`. -/
def Environment.set4 (e : Environment) (x y z p : Comp) (v : ℚ) : Environment :=
  ⟨ddUpd e.cells x
    (fun m2 => ddUpd m2 y (fun m1 => ddUpd m1 z (fun c => alSet c p v) []) []) []⟩

/-- Result of a well-formed `__getitem__`: a pheromone value (4-component key)
or a whole cell (3-component key). -/
inductive GetResult where
  | phero : Option ℚ → GetResult
  | cell : Option Cell → GetResult
deriving DecidableEq

/-- `Environment.__getitem__`: try to unpack the key as `(x, y, z, phero)`,
fall back to `(x, y, z)`, and raise `TypeError` for any other arity (the
`ValueError`/`TypeError` cascade in src/ant.py lines 36-52). -/
def Environment.getitem (e : Environment) (key : List Comp) :
    Except String (GetResult × Environment) :=
  match key with
  | [x, y, z, p] => .ok (GetResult.phero (e.get4 x y z p).1, (e.get4 x y z p).2)
  | [x, y, z] => .ok (GetResult.cell (e.get3 x y z).1, (e.get3 x y z).2)
  | _ => .error ("key should be (x, y, z, phero) or (x, y, z)")

/-- `Environment.__setitem__`: unpack the key as `(x, y, z, phero)` and store
the value, raising `TypeError` for any other arity (src/ant.py lines 24-34). -/
def Environment.setitem (e : Environment) (key : List Comp) (v : ℚ) :
    Except String Environment :=
  match key with
  | [x, y, z, p] => .ok (e.set4 x y z p v)
  | _ => .error ("key should be (x, y, z, phero)")

/-- Convenience wrapper: `env[x, y, z, phero]` with integer coordinates and a
string pheromone name, as used by the simulation code. -/
def envGet4 (e : Environment) (x y z : ℤ) (p : String) : Option ℚ × Environment :=
  e.get4 (.i x) (.i y) (.i z) (.s p)

/-- Convenience wrapper: `env[x, y, z]` with integer coordinates. -/
def envGet3 (e : Environment) (x y z : ℤ) : Option Cell × Environment :=
  e.get3 (.i x) (.i y) (.i z)

/-- Convenience wrapper: `env[x, y, z, phero] = v` with integer coordinates. -/
def envSet (e : Environment) (x y z : ℤ) (p : String) (v : ℚ) : Environment :=
  e.set4 (.i x) (.i y) (.i z) (.s p) v

/-- Observable single-signal read: the value `env[x, y, z, phero]` evaluates
to, ignoring the state change. -/
def envVal4 (e : Environment) (x y z : ℤ) (p : String) : Option ℚ :=
  alGet (e.getCell (.i x) (.i y) (.i z)) (.s p)

/-- Observable whole-cell read: the value `env[x, y, z]` evaluates to,
ignoring the state change. -/
def envVal3 (e : Environment) (x y z : ℤ) : Option Cell :=
  if e.getCell (.i x) (.i y) (.i z) = [] then none
  else some (e.getCell (.i x) (.i y) (.i z))

/-- Two environments are observationally equal when every cell reads the same
(so every 3- and 4-component read returns the same value). -/
def viewEq (e e' : Environment) : Prop :=
  ∀ x y z : Comp, e.getCell x y z = e'.getCell x y z

/-! ### Association-list lemmas -/

theorem alGet_alSet {κ α : Type} [DecidableEq κ] (l : List (κ × α)) (k k' : κ) (v : α) :
    alGet (alSet l k v) k' = if k' = k then some v else alGet l k' := by
  induction l with
  | nil => by_cases h : k' = k <;> simp [alSet, alGet, h]
  | cons hd t ih =>
    obtain ⟨k0, v0⟩ := hd
    by_cases h0 : k = k0
    · subst h0
      by_cases h' : k' = k <;> simp [alSet, alGet, h']
    · by_cases h' : k' = k0
      · subst h'
        have hne : ¬k' = k := fun h => h0 h.symm
        simp [alSet, alGet, h0, hne]
      · simp [alSet, alGet, h0, h', ih]

theorem alGet_append_of_some {κ α : Type} [DecidableEq κ] {l : List (κ × α)} {k' : κ}
    {w : α} (k : κ) (v : α) (h : alGet l k' = some w) :
    alGet (l ++ [(k, v)]) k' = some w := by
  induction l with
  | nil => simp [alGet] at h
  | cons hd t ih =>
    obtain ⟨k0, v0⟩ := hd
    by_cases h' : k' = k0
    · simp_all [alGet]
    · simp only [alGet, if_neg h'] at h
      simpa [alGet, h'] using ih h

theorem alGet_append_of_none {κ α : Type} [DecidableEq κ] {l : List (κ × α)} {k' : κ}
    (k : κ) (v : α) (h : alGet l k' = none) :
    alGet (l ++ [(k, v)]) k' = if k' = k then some v else none := by
  induction l with
  | nil => simp [alGet]
  | cons hd t ih =>
    obtain ⟨k0, v0⟩ := hd
    by_cases h' : k' = k0
    · simp_all [alGet]
    · simp only [alGet, if_neg h'] at h
      simpa [alGet, h'] using ih h

theorem alGet_ddUpd {κ α : Type} [DecidableEq κ] (l : List (κ × α)) (k k' : κ)
    (f : α → α) (d : α) :
    alGet (ddUpd l k f d) k' =
      if k' = k then some (f ((alGet l k).getD d)) else alGet l k' := by
  unfold ddUpd
  cases hg : alGet l k with
  | some v =>
    rw [alGet_alSet]
    by_cases h : k' = k
    · simp [h, hg]
    · simp [h]
  | none =>
    by_cases h : k' = k
    · have h0 : alGet l k' = none := by rw [h]; exact hg
      rw [alGet_append_of_none k (f d) h0, if_pos h, if_pos h]
      simp [hg]
    · rw [if_neg h]
      cases hx : alGet l k' with
      | some w => exact alGet_append_of_some k (f d) hx
      | none => rw [alGet_append_of_none k (f d) hx, if_neg h]

theorem alSet_ne_nil {κ α : Type} [DecidableEq κ] (l : List (κ × α)) (k : κ) (v : α) :
    alSet l k v ≠ [] := by
  cases l with
  | nil => simp [alSet]
  | cons hd t =>
    obtain ⟨k0, v0⟩ := hd
    simp only [alSet]
    by_cases h : k = k0 <;> simp [h]

theorem mem_of_alGet_eq_some {κ α : Type} [DecidableEq κ] {l : List (κ × α)} {k : κ}
    {v : α} (h : alGet l k = some v) : (k, v) ∈ l := by
  induction l with
  | nil => simp [alGet] at h
  | cons hd t ih =>
    obtain ⟨k0, v0⟩ := hd
    by_cases hk : k = k0
    · subst hk
      have h' : v0 = v := by simpa [alGet] using h
      subst h'
      exact List.mem_cons_self _ _
    · simp only [alGet, if_neg hk] at h
      exact List.mem_cons_of_mem _ (ih h)

/-! ### Environment observation lemmas -/

theorem getCell_materialize (e : Environment) (a b c x y z : Comp) :
    (e.materialize a b c).getCell x y z = e.getCell x y z := by
  unfold Environment.materialize Environment.getCell
  by_cases hx : x = a
  · by_cases hy : y = b
    · by_cases hz : z = c
      · simp [alGet_ddUpd, hx, hy, hz]
      · simp [alGet_ddUpd, hx, hy, hz]
    · simp [alGet_ddUpd, hx, hy]
  · simp [alGet_ddUpd, hx]

theorem getCell_set4 (e : Environment) (a b c p : Comp) (v : ℚ) (x y z : Comp) :
    (e.set4 a b c p v).getCell x y z =
      if x = a ∧ y = b ∧ z = c then alSet (e.getCell a b c) p v
      else e.getCell x y z := by
  unfold Environment.set4 Environment.getCell
  by_cases hx : x = a
  · by_cases hy : y = b
    · by_cases hz : z = c
      · simp [alGet_ddUpd, hx, hy, hz]
      · simp [alGet_ddUpd, hx, hy, hz]
    · simp [alGet_ddUpd, hx, hy]
  · simp [alGet_ddUpd, hx]

theorem viewEq_refl (e : Environment) : viewEq e e := fun _ _ _ => rfl

theorem viewEq_trans {e1 e2 e3 : Environment} (h1 : viewEq e1 e2) (h2 : viewEq e2 e3) :
    viewEq e1 e3 := fun x y z => (h1 x y z).trans (h2 x y z)

theorem viewEq_materialize (e : Environment) (a b c : Comp) :
    viewEq (e.materialize a b c) e := fun x y z => getCell_materialize e a b c x y z

theorem viewEq_get4_snd (e : Environment) (x y z p : Comp) :
    viewEq (e.get4 x y z p).2 e := viewEq_materialize e x y z

theorem viewEq_get3_snd (e : Environment) (x y z : Comp) :
    viewEq (e.get3 x y z).2 e := viewEq_materialize e x y z

theorem envVal4_congr {e e' : Environment} (h : viewEq e e') (x y z : ℤ) (p : String) :
    envVal4 e x y z p = envVal4 e' x y z p := by
  unfold envVal4
  rw [h]

theorem envVal3_congr {e e' : Environment} (h : viewEq e e') (x y z : ℤ) :
    envVal3 e x y z = envVal3 e' x y z := by
  unfold envVal3
  rw [h]

theorem envGet4_fst (e : Environment) (x y z : ℤ) (p : String) :
    (envGet4 e x y z p).1 = envVal4 e x y z p := rfl

theorem envGet3_fst (e : Environment) (x y z : ℤ) :
    (envGet3 e x y z).1 = envVal3 e x y z := rfl

theorem viewEq_envGet4_snd (e : Environment) (x y z : ℤ) (p : String) :
    viewEq (envGet4 e x y z p).2 e := viewEq_materialize e _ _ _

theorem viewEq_envGet3_snd (e : Environment) (x y z : ℤ) :
    viewEq (envGet3 e x y z).2 e := viewEq_materialize e _ _ _

theorem envVal4_envSet (e : Environment) (a b c : ℤ) (q : String) (v : ℚ)
    (x y z : ℤ) (p : String) :
    envVal4 (envSet e a b c q v) x y z p =
      if x = a ∧ y = b ∧ z = c ∧ p = q then some v else envVal4 e x y z p := by
  unfold envVal4 envSet
  rw [getCell_set4]
  by_cases hx : x = a
  · by_cases hy : y = b
    · by_cases hz : z = c
      · subst hx; subst hy; subst hz
        have h1 : Comp.i x = Comp.i x ∧ Comp.i y = Comp.i y ∧ Comp.i z = Comp.i z :=
          ⟨rfl, rfl, rfl⟩
        rw [if_pos h1, alGet_alSet]
        by_cases hp : p = q
        · simp [hp]
        · have hsp : ¬Comp.s p = Comp.s q := by simp [hp]
          simp [hp, hsp]
      · have h1 : ¬(Comp.i x = Comp.i a ∧ Comp.i y = Comp.i b ∧ Comp.i z = Comp.i c) := by
          simp [hz]
        have h2 : ¬(x = a ∧ y = b ∧ z = c ∧ p = q) := by simp [hz]
        rw [if_neg h1, if_neg h2]
    · have h1 : ¬(Comp.i x = Comp.i a ∧ Comp.i y = Comp.i b ∧ Comp.i z = Comp.i c) := by
        simp [hy]
      have h2 : ¬(x = a ∧ y = b ∧ z = c ∧ p = q) := by simp [hy]
      rw [if_neg h1, if_neg h2]
  · have h1 : ¬(Comp.i x = Comp.i a ∧ Comp.i y = Comp.i b ∧ Comp.i z = Comp.i c) := by
      simp [hx]
    have h2 : ¬(x = a ∧ y = b ∧ z = c ∧ p = q) := by simp [hx]
    rw [if_neg h1, if_neg h2]

theorem envVal3_envSet_same (e : Environment) (a b c : ℤ) (q : String) (v : ℚ) :
    envVal3 (envSet e a b c q v) a b c =
      some (alSet (e.getCell (.i a) (.i b) (.i c)) (.s q) v) := by
  unfold envVal3 envSet
  have h1 : Comp.i a = Comp.i a ∧ Comp.i b = Comp.i b ∧ Comp.i c = Comp.i c :=
    ⟨rfl, rfl, rfl⟩
  rw [getCell_set4, if_pos h1, if_neg (alSet_ne_nil _ _ _)]


/-! ### Evaporation (modelled from the spec) -/

/-- The decay applied to a single stored value by one evaporation pass:
`max(floor, v - v*value)`. -/
def decayVal (value fl v : ℚ) : ℚ := max fl (v - v * value)

/-- Modelled from the spec: `Environment.evaporate` is called by src/main.py
and exercised by the repository's tests, but its definition is not among the
source files.  Per the spec (§4.1), for every signal in every materialized
cell it replaces value `v` with `max(floor, v - v*value)`; the default decay
step `value = 0.05` gives retention ratio 0.95, and `floor` defaults to zero.
Signals are mapped in place, never removed. -/
def Environment.evaporate (e : Environment) (value : ℚ := 1/20) (fl : ℚ := 0) :
    Environment :=
  ⟨e.cells.map fun kx => (kx.1, kx.2.map fun ky => (ky.1, ky.2.map fun kz =>
    (kz.1, kz.2.map fun pv => (pv.1, decayVal value fl pv.2))))⟩

theorem alGet_mapVal {κ α β : Type} [DecidableEq κ] (l : List (κ × α)) (g : α → β)
    (k : κ) : alGet (l.map fun kv => (kv.1, g kv.2)) k = (alGet l k).map g := by
  induction l with
  | nil => simp [alGet]
  | cons hd t ih =>
    obtain ⟨k0, v0⟩ := hd
    by_cases h : k = k0 <;> simp [alGet, h, ih]

theorem getCell_evaporate (e : Environment) (dv fl : ℚ) (x y z : Comp) :
    (e.evaporate dv fl).getCell x y z =
      (e.getCell x y z).map fun pv => (pv.1, decayVal dv fl pv.2) := by
  unfold Environment.evaporate Environment.getCell
  rw [alGet_mapVal]
  cases alGet e.cells x with
  | none => simp [alGet]
  | some m2 =>
    simp only [Option.map_some', Option.getD_some]
    rw [alGet_mapVal]
    cases alGet m2 y with
    | none => simp [alGet]
    | some m1 =>
      simp only [Option.map_some', Option.getD_some]
      rw [alGet_mapVal]
      cases alGet m1 z with
      | none => simp [alGet]
      | some c => simp

theorem envVal4_evaporate (e : Environment) (dv fl : ℚ) (x y z : ℤ) (p : String) :
    envVal4 (e.evaporate dv fl) x y z p =
      (envVal4 e x y z p).map (decayVal dv fl) := by
  unfold envVal4
  rw [getCell_evaporate, alGet_mapVal _ (decayVal dv fl)]

/-! ### Neighborhood math (src/ant.py lines 55-90) -/

/-- The simulation's coordinates: ordered triples of integers. -/
abbrev Coord := ℤ × ℤ × ℤ

/-- Model of Python `range(a, b)` over integers. -/
def intRange (a b : ℤ) : List ℤ :=
  (List.range (b - a).toNat).map fun k : ℕ => a + (k : ℤ)

theorem mem_intRange (a b n : ℤ) : n ∈ intRange a b ↔ a ≤ n ∧ n < b := by
  unfold intRange
  rw [List.mem_map]
  constructor
  · rintro ⟨k, hk, rfl⟩
    rw [List.mem_range] at hk
    omega
  · rintro ⟨h1, h2⟩
    refine ⟨(n - a).toNat, ?_, ?_⟩
    · rw [List.mem_range]; omega
    · omega

/-- `adjacent_positions` (src/ant.py lines 55-70): every coordinate in the
`(2*increment+1)^3` cube around `position`, excluding `position` itself and
any coordinate with negative `y`. -/
def adjacent_positions (position : Coord) (increment : ℤ) : List Coord :=
  (intRange (position.1 - increment) (position.1 + increment + 1)).flatMap fun xi =>
    (intRange (position.2.1 - increment) (position.2.1 + increment + 1)).flatMap fun yi =>
      ((intRange (position.2.2 - increment) (position.2.2 + increment + 1)).filter
        fun zi => decide ((xi, yi, zi) ≠ position) && decide (0 ≤ yi)).map
        fun zi => (xi, yi, zi)

theorem mem_adjacent_positions (p q : Coord) (increment : ℤ) :
    q ∈ adjacent_positions p increment ↔
      (p.1 - increment ≤ q.1 ∧ q.1 ≤ p.1 + increment) ∧
      (p.2.1 - increment ≤ q.2.1 ∧ q.2.1 ≤ p.2.1 + increment) ∧
      (p.2.2 - increment ≤ q.2.2 ∧ q.2.2 ≤ p.2.2 + increment) ∧
      q ≠ p ∧ 0 ≤ q.2.1 := by
  obtain ⟨px, py, pz⟩ := p
  obtain ⟨qx, qy, qz⟩ := q
  unfold adjacent_positions
  simp only [List.mem_flatMap, List.mem_map, List.mem_filter, mem_intRange,
    Bool.and_eq_true, decide_eq_true_eq, Prod.mk.injEq]
  constructor
  · rintro ⟨xi, hxi, yi, hyi, zi, ⟨hzi, hne, hy0⟩, hx, hy, hz⟩
    subst hx; subst hy; subst hz
    refine ⟨⟨hxi.1, by omega⟩, ⟨hyi.1, by omega⟩, ⟨hzi.1, by omega⟩, hne, hy0⟩
  · rintro ⟨⟨hx1, hx2⟩, ⟨hy1, hy2⟩, ⟨hz1, hz2⟩, hne, hy0⟩
    exact ⟨qx, ⟨hx1, by omega⟩, qy, ⟨hy1, by omega⟩, qz,
      ⟨⟨hz1, by omega⟩, hne, hy0⟩, rfl, rfl, rfl⟩

theorem adjacent_positions_y_nonneg (p q : Coord) (increment : ℤ)
    (h : q ∈ adjacent_positions p increment) : 0 ≤ q.2.1 :=
  ((mem_adjacent_positions p q increment).mp h).2.2.2.2

theorem adjacent_positions_ne_self (p q : Coord) (increment : ℤ)
    (h : q ∈ adjacent_positions p increment) : q ≠ p :=
  ((mem_adjacent_positions p q increment).mp h).2.2.2.1

/-- The module-level `transformations` table (src/ant.py lines 73-80): the six
unit moves along the axes. -/
def transformations : List (ℤ → ℤ → ℤ → Coord) :=
  [fun x y z => (x, y + 1, z),
   fun x y z => (x, y - 1, z),
   fun x y z => (x + 1, y, z),
   fun x y z => (x - 1, y, z),
   fun x y z => (x, y, z + 1),
   fun x y z => (x, y, z - 1)]

/-- `direct_neighbors` (src/ant.py lines 83-90): apply each transformation to
the position. -/
def direct_neighbors (position : Coord) : List Coord :=
  transformations.map fun t => t position.1 position.2.1 position.2.2

theorem direct_neighbors_eq (position : Coord) :
    direct_neighbors position =
      [(position.1, position.2.1 + 1, position.2.2),
       (position.1, position.2.1 - 1, position.2.2),
       (position.1 + 1, position.2.1, position.2.2),
       (position.1 - 1, position.2.1, position.2.2),
       (position.1, position.2.1, position.2.2 + 1),
       (position.1, position.2.1, position.2.2 - 1)] := rfl

theorem mem_direct_neighbors (c q : Coord) :
    q ∈ direct_neighbors c ↔
      ((q.1 = c.1 ∧ q.2.2 = c.2.2 ∧ (q.2.1 = c.2.1 + 1 ∨ q.2.1 = c.2.1 - 1)) ∨
       (q.2.1 = c.2.1 ∧ q.2.2 = c.2.2 ∧ (q.1 = c.1 + 1 ∨ q.1 = c.1 - 1)) ∨
       (q.1 = c.1 ∧ q.2.1 = c.2.1 ∧ (q.2.2 = c.2.2 + 1 ∨ q.2.2 = c.2.2 - 1))) := by
  obtain ⟨cx, cy, cz⟩ := c
  obtain ⟨qx, qy, qz⟩ := q
  rw [direct_neighbors_eq]
  simp only [List.mem_cons, List.not_mem_nil, or_false, Prod.mk.injEq]
  omega

theorem direct_neighbors_length (c : Coord) : (direct_neighbors c).length = 6 := rfl

theorem direct_neighbors_nodup (c : Coord) : (direct_neighbors c).Nodup := by
  obtain ⟨cx, cy, cz⟩ := c
  rw [direct_neighbors_eq]
  simp only [List.nodup_cons, List.mem_cons, List.not_mem_nil, or_false, not_or,
    Prod.mk.injEq, List.nodup_nil, and_true]
  repeat' apply And.intro
  all_goals first | omega | trivial

/-! ### Attractiveness scoring (src/ant.py lines 93-106) -/

/-- Per-candidate scores: the plain Python dict `phero -> value` built by
`pheromone_attractiveness`, keyed by the pheromone names the agent knows. -/
abbrev Scores := List (String × ℚ)

/-- The generator inside `sum(environment[x, y, z, phero] or 0 for ...)`:
accumulate the pheromone values over the neighbor list, threading the
environment (each read may materialize an empty cell). -/
def sumPheroAcc : List Coord → String → Environment → ℚ → ℚ × Environment
  | [], _, e, acc => (acc, e)
  | n :: t, p, e, acc =>
    let r := envGet4 e n.1 n.2.1 n.2.2 p
    sumPheroAcc t p r.2 (acc + r.1.getD 0)

/-- The dict comprehension of `pheromone_attractiveness`: one entry per
pheromone name, in order. -/
def pheroLoop : List String → Coord → Environment → Scores → Scores × Environment
  | [], _, e, d => (d, e)
  | p :: ps, pos, e, d =>
    let r := sumPheroAcc (direct_neighbors pos) p e 0
    pheroLoop ps pos r.2 (alSet d p r.1)

/-- `pheromone_attractiveness` (src/ant.py lines 93-106): for each pheromone
name, the sum of that pheromone's value (absent read as 0) over the six direct
neighbors of `position`. -/
def pheromone_attractiveness (position : Coord) (environment : Environment)
    (pheromones : List String) : Scores × Environment :=
  pheroLoop pheromones position environment []

/-- The pure value of one neighbor-sum: what `sumPheroAcc` computes, expressed
against the observable view of the starting environment. -/
def sumPheroVal (e : Environment) (ns : List Coord) (p : String) : ℚ :=
  (ns.map fun n => (envVal4 e n.1 n.2.1 n.2.2 p).getD 0).sum

theorem sumPheroAcc_fst (ns : List Coord) (p : String) (e : Environment) (acc : ℚ) :
    (sumPheroAcc ns p e acc).1 = acc + sumPheroVal e ns p := by
  induction ns generalizing e acc with
  | nil => simp [sumPheroAcc, sumPheroVal]
  | cons n t ih =>
    rw [sumPheroAcc]
    rw [ih]
    have hv : ((envGet4 e n.1 n.2.1 n.2.2 p).2) = e.materialize (.i n.1) (.i n.2.1)
        (.i n.2.2) := rfl
    have hview : ∀ ns' p', sumPheroVal (envGet4 e n.1 n.2.1 n.2.2 p).2 ns' p' =
        sumPheroVal e ns' p' := by
      intro ns' p'
      unfold sumPheroVal
      congr 1
      refine List.map_congr_left fun q _ => ?_
      rw [envVal4_congr (viewEq_envGet4_snd e n.1 n.2.1 n.2.2 p)]
    rw [hview]
    unfold sumPheroVal
    simp [envGet4_fst]
    ring

theorem viewEq_sumPheroAcc_snd (ns : List Coord) (p : String) (e : Environment)
    (acc : ℚ) : viewEq (sumPheroAcc ns p e acc).2 e := by
  induction ns generalizing e acc with
  | nil => exact viewEq_refl e
  | cons n t ih =>
    rw [sumPheroAcc]
    exact viewEq_trans (ih _ _) (viewEq_envGet4_snd e n.1 n.2.1 n.2.2 p)

theorem viewEq_pheroLoop_snd (ps : List String) (pos : Coord) (e : Environment)
    (d : Scores) : viewEq (pheroLoop ps pos e d).2 e := by
  induction ps generalizing e d with
  | nil => exact viewEq_refl e
  | cons p t ih =>
    rw [pheroLoop]
    exact viewEq_trans (ih _ _) (viewEq_sumPheroAcc_snd _ _ _ _)

theorem sumPheroVal_congr {e e' : Environment} (h : viewEq e e') (ns : List Coord)
    (p : String) : sumPheroVal e ns p = sumPheroVal e' ns p := by
  unfold sumPheroVal
  congr 1
  refine List.map_congr_left fun q _ => ?_
  rw [envVal4_congr h]

theorem alGet_pheroLoop (ps : List String) (pos : Coord) (e : Environment)
    (d : Scores) (p : String) :
    alGet (pheroLoop ps pos e d).1 p =
      if p ∈ ps then some (sumPheroVal e (direct_neighbors pos) p)
      else alGet d p := by
  induction ps generalizing e d with
  | nil => simp [pheroLoop]
  | cons p0 t ih =>
    rw [pheroLoop, ih, alGet_alSet]
    by_cases hmem : p ∈ t
    · rw [if_pos hmem, if_pos (List.mem_cons_of_mem _ hmem)]
      rw [sumPheroVal_congr (viewEq_sumPheroAcc_snd _ _ _ _)]
    · rw [if_neg hmem]
      by_cases hp0 : p = p0
      · subst hp0
        rw [if_pos rfl, if_pos (List.mem_cons_self _ _)]
        rw [sumPheroAcc_fst, zero_add]
      · rw [if_neg hp0, if_neg (by simp [hp0, hmem])]

theorem alGet_pheromone_attractiveness (pos : Coord) (e : Environment)
    (ps : List String) (p : String) (hp : p ∈ ps) :
    alGet (pheromone_attractiveness pos e ps).1 p =
      some (sumPheroVal e (direct_neighbors pos) p) := by
  unfold pheromone_attractiveness
  rw [alGet_pheroLoop, if_pos hp]

theorem viewEq_pheromone_attractiveness_snd (pos : Coord) (e : Environment)
    (ps : List String) : viewEq (pheromone_attractiveness pos e ps).2 e :=
  viewEq_pheroLoop_snd ps pos e []

/-! ### The Ant legality filter (src/ant.py lines 146-159) -/

/-- The inner neighbor loop of `Ant._filter_adjacent_positions`: for each
direct neighbor of `pos`, read its whole cell and yield `pos` once per
occupied neighbor. -/
def neighborYields (pos : Coord) : List Coord → Environment → List Coord × Environment
  | [], e => ([], e)
  | n :: ns, e =>
    let r := envGet3 e n.1 n.2.1 n.2.2
    let rest := neighborYields pos ns r.2
    ((if r.1.isSome then pos :: rest.1 else rest.1), rest.2)

/-- `Ant._filter_adjacent_positions` (src/ant.py lines 146-159), consumed as a
list: skip the agent's own position and occupied candidates; yield a candidate
once if it is on the ground plane, plus once per occupied direct neighbor. -/
def filter_adjacent_positions (selfPos : Coord) :
    List Coord → Environment → List Coord × Environment
  | [], e => ([], e)
  | pos :: rest, e =>
    let r := envGet3 e pos.1 pos.2.1 pos.2.2
    if pos = selfPos ∨ r.1.isSome then filter_adjacent_positions selfPos rest r.2
    else
      let ground : List Coord := if pos.2.1 = 0 then [pos] else []
      let ys := neighborYields pos (direct_neighbors pos) r.2
      let tail := filter_adjacent_positions selfPos rest ys.2
      (ground ++ ys.1 ++ tail.1, tail.2)

theorem viewEq_neighborYields_snd (pos : Coord) (ns : List Coord) (e : Environment) :
    viewEq (neighborYields pos ns e).2 e := by
  induction ns generalizing e with
  | nil => exact viewEq_refl e
  | cons n t ih =>
    rw [neighborYields]
    exact viewEq_trans (ih _) (viewEq_envGet3_snd e n.1 n.2.1 n.2.2)

theorem viewEq_filter_adjacent_positions_snd (selfPos : Coord) (l : List Coord)
    (e : Environment) : viewEq (filter_adjacent_positions selfPos l e).2 e := by
  induction l generalizing e with
  | nil => exact viewEq_refl e
  | cons pos rest ih =>
    rw [filter_adjacent_positions]
    by_cases hc : pos = selfPos ∨ ((envGet3 e pos.1 pos.2.1 pos.2.2).1).isSome
    · rw [if_pos hc]
      exact viewEq_trans (ih _) (viewEq_envGet3_snd e pos.1 pos.2.1 pos.2.2)
    · rw [if_neg hc]
      exact viewEq_trans (ih _) (viewEq_trans (viewEq_neighborYields_snd _ _ _)
        (viewEq_envGet3_snd e pos.1 pos.2.1 pos.2.2))

theorem mem_neighborYields (pos q : Coord) (ns : List Coord) (e : Environment) :
    q ∈ (neighborYields pos ns e).1 ↔
      q = pos ∧ ∃ n ∈ ns, envVal3 e n.1 n.2.1 n.2.2 ≠ none := by
  induction ns generalizing e with
  | nil => simp [neighborYields]
  | cons n t ih =>
    rw [neighborYields]
    have hval : (envGet3 e n.1 n.2.1 n.2.2).1 = envVal3 e n.1 n.2.1 n.2.2 :=
      envGet3_fst e n.1 n.2.1 n.2.2
    have hrest : ∀ m : Coord, envVal3 (envGet3 e n.1 n.2.1 n.2.2).2 m.1 m.2.1 m.2.2 =
        envVal3 e m.1 m.2.1 m.2.2 := fun m =>
      envVal3_congr (viewEq_envGet3_snd e n.1 n.2.1 n.2.2) m.1 m.2.1 m.2.2
    by_cases hocc : ((envGet3 e n.1 n.2.1 n.2.2).1).isSome
    · rw [if_pos hocc]
      simp only [List.mem_cons, ih]
      constructor
      · rintro (rfl | ⟨rfl, m, hm, hmne⟩)
        · refine ⟨rfl, n, Or.inl rfl, ?_⟩
          rw [← hval]
          exact Option.isSome_iff_ne_none.mp hocc
        · exact ⟨rfl, m, Or.inr hm, by rw [← hrest m]; exact hmne⟩
      · rintro ⟨rfl, _, _, _⟩
        exact Or.inl rfl
    · rw [if_neg hocc]
      rw [ih]
      constructor
      · rintro ⟨rfl, m, hm, hmne⟩
        exact ⟨rfl, m, List.mem_cons_of_mem _ hm, by rw [← hrest m]; exact hmne⟩
      · rintro ⟨rfl, m, hm, hmne⟩
        rcases List.mem_cons.mp hm with rfl | hm'
        · exfalso
          rw [← hval] at hmne
          exact hmne (Option.not_isSome_iff_eq_none.mp (by simpa using hocc))
        · exact ⟨rfl, m, hm', by rw [hrest m]; exact hmne⟩

theorem mem_filter_adjacent_positions (selfPos q : Coord) (l : List Coord)
    (e : Environment) :
    q ∈ (filter_adjacent_positions selfPos l e).1 ↔
      q ∈ l ∧ q ≠ selfPos ∧ envVal3 e q.1 q.2.1 q.2.2 = none ∧
      (q.2.1 = 0 ∨ ∃ n ∈ direct_neighbors q, envVal3 e n.1 n.2.1 n.2.2 ≠ none) := by
  induction l generalizing e with
  | nil => simp [filter_adjacent_positions]
  | cons pos rest ih =>
    rw [filter_adjacent_positions]
    have hval : (envGet3 e pos.1 pos.2.1 pos.2.2).1 = envVal3 e pos.1 pos.2.1 pos.2.2 :=
      envGet3_fst e pos.1 pos.2.1 pos.2.2
    have hview : viewEq (envGet3 e pos.1 pos.2.1 pos.2.2).2 e :=
      viewEq_envGet3_snd e pos.1 pos.2.1 pos.2.2
    have hrest3 : ∀ m : Coord, envVal3 (envGet3 e pos.1 pos.2.1 pos.2.2).2 m.1 m.2.1
        m.2.2 = envVal3 e m.1 m.2.1 m.2.2 := fun m => envVal3_congr hview m.1 m.2.1 m.2.2
    by_cases hc : pos = selfPos ∨ ((envGet3 e pos.1 pos.2.1 pos.2.2).1).isSome
    · rw [if_pos hc]
      rw [ih]
      constructor
      · rintro ⟨hq, hne, habs, hlaw⟩
        exact ⟨List.mem_cons_of_mem _ hq, hne, by rw [← hrest3 q]; exact habs,
          hlaw.imp id fun ⟨n, hn, hnne⟩ => ⟨n, hn, by rw [← hrest3 n]; exact hnne⟩⟩
      · rintro ⟨hq, hne, habs, hlaw⟩
        rcases List.mem_cons.mp hq with rfl | hq'
        · exfalso
          rcases hc with hc | hc
          · exact hne hc
          · rw [hval] at hc
            rw [habs] at hc
            simp at hc
        · exact ⟨hq', hne, by rw [hrest3 q]; exact habs,
            hlaw.imp id fun ⟨n, hn, hnne⟩ => ⟨n, hn, by rw [hrest3 n]; exact hnne⟩⟩
    · rw [if_neg hc]
      push_neg at hc
      obtain ⟨hnself, hunocc⟩ := hc
      have habs0 : envVal3 e pos.1 pos.2.1 pos.2.2 = none := by
        rw [← hval]
        exact Option.not_isSome_iff_eq_none.mp (by simpa using hunocc)
      have hviewY : viewEq (neighborYields pos (direct_neighbors pos)
          (envGet3 e pos.1 pos.2.1 pos.2.2).2).2 e :=
        viewEq_trans (viewEq_neighborYields_snd _ _ _) hview
      have hrestY : ∀ m : Coord, envVal3 (neighborYields pos (direct_neighbors pos)
          (envGet3 e pos.1 pos.2.1 pos.2.2).2).2 m.1 m.2.1 m.2.2 =
          envVal3 e m.1 m.2.1 m.2.2 := fun m => envVal3_congr hviewY m.1 m.2.1 m.2.2
      simp only [List.mem_append, ih, mem_neighborYields]
      constructor
      · rintro ((hg | hy) | ⟨hq, hne, habs, hlaw⟩)
        · have : q = pos := by
            by_cases h0 : pos.2.1 = 0
            · simpa [h0] using hg
            · simp [h0] at hg
          subst this
          have h0 : q.2.1 = 0 := by
            by_cases h0 : q.2.1 = 0
            · exact h0
            · simp [h0] at hg
          exact ⟨List.mem_cons_self _ _, hnself, habs0, Or.inl h0⟩
        · obtain ⟨rfl, n, hn, hnne⟩ := hy
          refine ⟨List.mem_cons_self _ _, hnself, habs0, Or.inr ⟨n, hn, ?_⟩⟩
          rw [← hrest3 n]
          exact hnne
        · exact ⟨List.mem_cons_of_mem _ hq, hne, by rw [← hrestY q]; exact habs,
            hlaw.imp id fun ⟨n, hn, hnne⟩ => ⟨n, hn, by rw [← hrestY n]; exact hnne⟩⟩
      · rintro ⟨hq, hne, habs, hlaw⟩
        rcases List.mem_cons.mp hq with rfl | hq'
        · rcases hlaw with h0 | ⟨n, hn, hnne⟩
          · exact Or.inl (Or.inl (by simp [h0]))
          · exact Or.inl (Or.inr ⟨rfl, n, hn, by rw [hrest3 n]; exact hnne⟩)
        · exact Or.inr ⟨hq', hne, by rw [hrestY q]; exact habs,
            hlaw.imp id fun ⟨n, hn, hnne⟩ => ⟨n, hn, by rw [hrestY n]; exact hnne⟩⟩

/-! ### Selection (src/ant.py lines 196-220) -/

/-- Python's `max(d.values())` on a Scores dict: fold of `max` over the values
(the Python call raises on an empty dict; callers only reach it with a
non-empty one, and the `[]` case here is a junk value). -/
def cellMax : Scores → ℚ
  | [] => 0
  | pv :: t => t.foldl (fun a pv2 => max a pv2.2) pv.2

theorem foldl_max_le_of_le (t : List (String × ℚ)) (a b : ℚ) (h : a ≤ b) :
    t.foldl (fun acc pv => max acc pv.2) a ≤ t.foldl (fun acc pv => max acc pv.2) b := by
  induction t generalizing a b with
  | nil => exact h
  | cons x xs ih => exact ih _ _ (max_le_max h le_rfl)

theorem le_foldl_max_init (t : List (String × ℚ)) (a : ℚ) :
    a ≤ t.foldl (fun acc pv => max acc pv.2) a := by
  induction t generalizing a with
  | nil => exact le_rfl
  | cons x xs ih => exact le_trans (le_max_left _ _) (ih _)

theorem le_foldl_max_of_mem (t : List (String × ℚ)) (a : ℚ) (pv : String × ℚ)
    (h : pv ∈ t) : pv.2 ≤ t.foldl (fun acc pv2 => max acc pv2.2) a := by
  induction t generalizing a with
  | nil => simp at h
  | cons x xs ih =>
    rcases List.mem_cons.mp h with rfl | h'
    · exact le_trans (le_max_right _ _) (le_foldl_max_init _ _)
    · exact ih _ h'

theorem foldl_max_cases (t : List (String × ℚ)) (a : ℚ) :
    t.foldl (fun acc pv2 => max acc pv2.2) a = a ∨
      ∃ pv ∈ t, t.foldl (fun acc pv2 => max acc pv2.2) a = pv.2 := by
  induction t generalizing a with
  | nil => exact Or.inl rfl
  | cons x xs ih =>
    rcases ih (max a x.2) with h | ⟨pv, hpv, h⟩
    · rcases max_cases a x.2 with ⟨hm, _⟩ | ⟨hm, _⟩
      · exact Or.inl (by rw [List.foldl_cons, h, hm])
      · exact Or.inr ⟨x, List.mem_cons_self _ _, by rw [List.foldl_cons, h, hm]⟩
    · exact Or.inr ⟨pv, List.mem_cons_of_mem _ hpv, by rw [List.foldl_cons, h]⟩

theorem le_cellMax_of_mem (sc : Scores) (pv : String × ℚ) (h : pv ∈ sc) :
    pv.2 ≤ cellMax sc := by
  cases sc with
  | nil => simp at h
  | cons hd t =>
    rw [cellMax]
    rcases List.mem_cons.mp h with rfl | h'
    · exact le_foldl_max_init _ _
    · exact le_foldl_max_of_mem _ _ _ h'

theorem cellMax_mem (sc : Scores) (h : sc ≠ []) : ∃ p, (p, cellMax sc) ∈ sc := by
  cases sc with
  | nil => exact absurd rfl h
  | cons hd t =>
    rw [cellMax]
    rcases foldl_max_cases t hd.2 with h0 | ⟨pv, hpv, h0⟩
    · exact ⟨hd.1, by rw [h0]; exact List.mem_cons_self _ _⟩
    · exact ⟨pv.1, by rw [h0]; exact List.mem_cons_of_mem _ hpv⟩

/-- The sort key comparison used by
`sorted(positions_pheromone.items(), key=lambda item: max(item[1].values()))`. -/
def scoreKeyLE (a b : Coord × Scores) : Prop := cellMax a.2 ≤ cellMax b.2

instance : DecidableRel scoreKeyLE := fun a b =>
  inferInstanceAs (Decidable (cellMax a.2 ≤ cellMax b.2))

instance : IsTotal (Coord × Scores) scoreKeyLE := ⟨fun _ _ => le_total _ _⟩

instance : IsTrans (Coord × Scores) scoreKeyLE := ⟨fun _ _ _ => le_trans⟩

/-- The `sorted(...)` call of `_get_most_attractive_position`.  Python's
`sorted` is a stable sort on the key `max(item[1].values())`; the model uses
insertion sort with the same key, which produces the same multiset in
ascending key order (tie order among equal keys is consumed only through a
uniformly random choice below, so it is not observable). -/
def sortedPP (pp : List (Coord × Scores)) : List (Coord × Scores) :=
  List.insertionSort scoreKeyLE pp

/-- `max_phero_value = max(most_attractive_positions[-1][1].values())`: the key
of the last (greatest) element of the sorted list. -/
def lastMax (pp : List (Coord × Scores)) : ℚ :=
  match (sortedPP pp).getLast? with
  | none => 0
  | some it => cellMax it.2

/-- The tied-candidate list built by the comprehension
`[(pos, pheros) ... if max(pheros.values()) == max_phero_value]`. -/
def tiedItems (pp : List (Coord × Scores)) : List (Coord × Scores) :=
  (sortedPP pp).filter fun it => decide (cellMax it.2 = lastMax pp)

/-- The tied-pheromone list `[k for k, v in pheros.items() if v == max_phero_value]`. -/
def tiedPheros (sc : Scores) (m : ℚ) : List String :=
  (sc.filter fun pv => decide (pv.2 = m)).map Prod.fst

/-- Model of `random.choice(seq)`: the chosen index is supplied as a parameter
and reduced modulo the length, so every element is a possible outcome; `none`
models the `IndexError` raised on an empty sequence. -/
def choiceModel {α : Type} (l : List α) (i : ℕ) : Option α := l.get? (i % l.length)

/-- `Ant._get_most_attractive_position` (src/ant.py lines 196-220), with the
two `random.choice` draws supplied as index parameters `i` (tied positions)
and `j` (tied pheromones).  Returns `none` exactly when Python would raise
(empty input). -/
def get_most_attractive_position (positions_pheromone : List (Coord × Scores))
    (i j : ℕ) : Option (Coord × String × ℚ) :=
  (sortedPP positions_pheromone).getLast?.bind fun _ =>
    (choiceModel (tiedItems positions_pheromone) i).bind fun item =>
      (choiceModel (tiedPheros item.2 (lastMax positions_pheromone)) j).map fun ph =>
        (item.1, ph, lastMax positions_pheromone)

theorem choiceModel_mem {α : Type} {l : List α} {i : ℕ} {a : α}
    (h : choiceModel l i = some a) : a ∈ l := List.get?_mem h

theorem choiceModel_isSome {α : Type} (l : List α) (i : ℕ) (h : l ≠ []) :
    ∃ a, choiceModel l i = some a := by
  have hl : 0 < l.length := List.length_pos.mpr h
  exact ⟨_, List.get?_eq_get (Nat.mod_lt _ hl)⟩

theorem choiceModel_of_mem {α : Type} {l : List α} {a : α} (h : a ∈ l) :
    ∃ i, choiceModel l i = some a := by
  rcases List.mem_iff_get.mp h with ⟨idx, rfl⟩
  refine ⟨idx.1, ?_⟩
  unfold choiceModel
  rw [Nat.mod_eq_of_lt idx.2]
  exact List.get?_eq_get idx.2

theorem sortedPP_perm (pp : List (Coord × Scores)) : List.Perm (sortedPP pp) pp :=
  List.perm_insertionSort scoreKeyLE pp

theorem sortedPP_sorted (pp : List (Coord × Scores)) :
    List.Sorted scoreKeyLE (sortedPP pp) :=
  List.sorted_insertionSort scoreKeyLE pp

theorem mem_sortedPP (pp : List (Coord × Scores)) (it : Coord × Scores) :
    it ∈ sortedPP pp ↔ it ∈ pp := (sortedPP_perm pp).mem_iff

theorem getLast?_eq_append {α : Type} (l : List α) (a : α) (h : l.getLast? = some a) :
    ∃ l', l = l' ++ [a] := by
  rcases List.eq_nil_or_concat l with rfl | ⟨l', b, rfl⟩
  · simp at h
  · simp only [List.concat_eq_append, List.getLast?_concat, Option.some.injEq] at h
    exact ⟨l', by simp [h]⟩

/-- The last element of the sorted list is maximal: its key bounds the key of
every member. -/
theorem lastMax_is_max (pp : List (Coord × Scores)) (it : Coord × Scores)
    (hit : it ∈ pp) : cellMax it.2 ≤ lastMax pp := by
  have hmem : it ∈ sortedPP pp := (mem_sortedPP pp it).mpr hit
  have hne : sortedPP pp ≠ [] := List.ne_nil_of_mem hmem
  cases hlast : (sortedPP pp).getLast? with
  | none => exact absurd (List.getLast?_eq_none_iff.mp hlast) hne
  | some lastIt =>
    have hgoal : lastMax pp = cellMax lastIt.2 := by simp [lastMax, hlast]
    rw [hgoal]
    obtain ⟨l', hl'⟩ := getLast?_eq_append _ _ hlast
    have hsorted := sortedPP_sorted pp
    rw [hl'] at hsorted hmem
    have hpair : List.Pairwise scoreKeyLE (l' ++ [lastIt]) := hsorted
    rcases List.pairwise_append.mp hpair with ⟨_, _, hcross⟩
    rcases List.mem_append.mp hmem with hin | hin
    · exact hcross it hin lastIt (List.mem_singleton_self _)
    · rw [List.mem_singleton.mp hin]

theorem lastMax_attained (pp : List (Coord × Scores)) (h : pp ≠ []) :
    ∃ it ∈ pp, cellMax it.2 = lastMax pp := by
  have hne : sortedPP pp ≠ [] := by
    intro hcon
    have hperm := sortedPP_perm pp
    rw [hcon] at hperm
    exact h hperm.symm.eq_nil
  cases hlast : (sortedPP pp).getLast? with
  | none => exact absurd (List.getLast?_eq_none_iff.mp hlast) hne
  | some lastIt =>
    obtain ⟨l', hl'⟩ := getLast?_eq_append _ _ hlast
    refine ⟨lastIt, ?_, ?_⟩
    · refine (mem_sortedPP pp lastIt).mp ?_
      rw [hl']
      exact List.mem_append_right _ (List.mem_singleton_self _)
    · simp [lastMax, hlast]

theorem mem_tiedItems (pp : List (Coord × Scores)) (it : Coord × Scores) :
    it ∈ tiedItems pp ↔ it ∈ sortedPP pp ∧ cellMax it.2 = lastMax pp := by
  unfold tiedItems
  rw [List.mem_filter]
  simp only [decide_eq_true_eq]

theorem tiedItems_ne_nil (pp : List (Coord × Scores)) (h : pp ≠ []) :
    tiedItems pp ≠ [] := by
  have hne : sortedPP pp ≠ [] := by
    intro hcon
    have hperm := sortedPP_perm pp
    rw [hcon] at hperm
    exact h hperm.symm.eq_nil
  cases hlast : (sortedPP pp).getLast? with
  | none => exact absurd (List.getLast?_eq_none_iff.mp hlast) hne
  | some lastIt =>
    obtain ⟨l', hl'⟩ := getLast?_eq_append _ _ hlast
    have hmem : lastIt ∈ tiedItems pp := by
      rw [mem_tiedItems]
      constructor
      · rw [hl']
        exact List.mem_append_right _ (List.mem_singleton_self _)
      · simp [lastMax, hlast]
    exact List.ne_nil_of_mem hmem

theorem mem_tiedPheros (sc : Scores) (m : ℚ) (ph : String) :
    ph ∈ tiedPheros sc m ↔ (ph, m) ∈ sc := by
  unfold tiedPheros
  simp only [List.mem_map, List.mem_filter, decide_eq_true_eq]
  constructor
  · rintro ⟨⟨p1, v1⟩, ⟨hmem, hv⟩, hp⟩
    simp only at hv hp
    rw [← hp, ← hv]
    exact hmem
  · intro h
    exact ⟨(ph, m), ⟨h, rfl⟩, rfl⟩

theorem tiedPheros_ne_nil (sc : Scores) (hsc : sc ≠ []) :
    tiedPheros sc (cellMax sc) ≠ [] := by
  obtain ⟨p, hp⟩ := cellMax_mem sc hsc
  exact List.ne_nil_of_mem ((mem_tiedPheros sc (cellMax sc) p).mpr hp)

/-- Every value stored anywhere in `positions_pheromone` is bounded by the
maximum the selection computes. -/
theorem le_lastMax (pp : List (Coord × Scores)) (pos : Coord) (pheros : Scores)
    (ph : String) (v : ℚ) (hmem : (pos, pheros) ∈ pp) (hv : (ph, v) ∈ pheros) :
    v ≤ lastMax pp :=
  le_trans (le_cellMax_of_mem pheros (ph, v) hv) (lastMax_is_max pp (pos, pheros) hmem)

/-- For a non-empty input whose score dicts are all non-empty, both random
draws succeed and the selection returns the last-of-sorted maximum together
with a position and pheromone that attain it. -/
theorem gmap_spec (pp : List (Coord × Scores)) (i j : ℕ) (hne : pp ≠ [])
    (hc : ∀ it ∈ pp, it.2 ≠ []) :
    ∃ pos ph pheros,
      get_most_attractive_position pp i j = some (pos, ph, lastMax pp) ∧
      (pos, pheros) ∈ pp ∧ (ph, lastMax pp) ∈ pheros := by
  have hsne : sortedPP pp ≠ [] := by
    intro hcon
    have hperm := sortedPP_perm pp
    rw [hcon] at hperm
    exact hne hperm.symm.eq_nil
  cases hlast : (sortedPP pp).getLast? with
  | none => exact absurd (List.getLast?_eq_none_iff.mp hlast) hsne
  | some lastIt =>
    obtain ⟨item, hitem⟩ := choiceModel_isSome (tiedItems pp) i (tiedItems_ne_nil pp hne)
    have hitem_mem := choiceModel_mem hitem
    rw [mem_tiedItems] at hitem_mem
    obtain ⟨hitem_sorted, hitem_max⟩ := hitem_mem
    have hitem_pp : item ∈ pp := (mem_sortedPP pp item).mp hitem_sorted
    have hsc_ne : item.2 ≠ [] := hc item hitem_pp
    have htp_ne : tiedPheros item.2 (lastMax pp) ≠ [] := by
      rw [← hitem_max]
      exact tiedPheros_ne_nil item.2 hsc_ne
    obtain ⟨ph, hph⟩ := choiceModel_isSome (tiedPheros item.2 (lastMax pp)) j htp_ne
    have hph_mem : (ph, lastMax pp) ∈ item.2 :=
      (mem_tiedPheros item.2 (lastMax pp) ph).mp (choiceModel_mem hph)
    refine ⟨item.1, ph, item.2, ?_, by rw [Prod.mk.eta]; exact hitem_pp, hph_mem⟩
    unfold get_most_attractive_position
    rw [hlast]
    simp [hitem, hph]

/-- Every `(candidate, pheromone)` pair attaining the maximum is a possible
outcome of the two random draws. -/
theorem gmap_reachable (pp : List (Coord × Scores)) (pos : Coord) (pheros : Scores)
    (ph : String) (hmem : (pos, pheros) ∈ pp) (hph : (ph, lastMax pp) ∈ pheros) :
    ∃ i j, get_most_attractive_position pp i j = some (pos, ph, lastMax pp) := by
  have hne : pp ≠ [] := List.ne_nil_of_mem hmem
  have hsne : sortedPP pp ≠ [] := by
    intro hcon
    have hperm := sortedPP_perm pp
    rw [hcon] at hperm
    exact hne hperm.symm.eq_nil
  cases hlast : (sortedPP pp).getLast? with
  | none => exact absurd (List.getLast?_eq_none_iff.mp hlast) hsne
  | some lastIt =>
    have hmax : cellMax pheros = lastMax pp :=
      le_antisymm (lastMax_is_max pp (pos, pheros) hmem)
        (le_cellMax_of_mem pheros (ph, lastMax pp) hph)
    have htied : (pos, pheros) ∈ tiedItems pp :=
      (mem_tiedItems pp (pos, pheros)).mpr ⟨(mem_sortedPP pp _).mpr hmem, hmax⟩
    obtain ⟨i, hi⟩ := choiceModel_of_mem htied
    obtain ⟨j, hj⟩ := choiceModel_of_mem ((mem_tiedPheros pheros (lastMax pp) ph).mpr hph)
    refine ⟨i, j, ?_⟩
    unfold get_most_attractive_position
    rw [hlast]
    simp [hi, hj]

/-- Inversion: whatever the draws, a successful selection returns the maximum
as its value, and its position is one of the input candidates whose scores
contain the returned pheromone at that maximum. -/
theorem gmap_inv (pp : List (Coord × Scores)) (i j : ℕ) (pos : Coord) (ph : String)
    (m : ℚ) (h : get_most_attractive_position pp i j = some (pos, ph, m)) :
    m = lastMax pp ∧ ∃ pheros, (pos, pheros) ∈ pp ∧ (ph, m) ∈ pheros := by
  unfold get_most_attractive_position at h
  cases hlast : (sortedPP pp).getLast? with
  | none => rw [hlast] at h; simp at h
  | some lastIt =>
    rw [hlast] at h
    cases hch : choiceModel (tiedItems pp) i with
    | none => simp [hch] at h
    | some item =>
      cases hph : choiceModel (tiedPheros item.2 (lastMax pp)) j with
      | none => simp [hch, hph] at h
      | some ph' =>
        simp only [hch, hph, Option.some_bind, Option.map_some',
          Option.some.injEq, Prod.mk.injEq] at h
        obtain ⟨hpos, hph', hm⟩ := h
        have hitem_mem := choiceModel_mem hch
        rw [mem_tiedItems] at hitem_mem
        have hitem_pp : item ∈ pp := (mem_sortedPP pp item).mp hitem_mem.1
        have hphm : (ph', lastMax pp) ∈ item.2 :=
          (mem_tiedPheros item.2 (lastMax pp) ph').mp (choiceModel_mem hph)
        refine ⟨hm.symm, item.2, ?_, ?_⟩
        · rw [← hpos, Prod.mk.eta]
          exact hitem_pp
        · rw [← hph', ← hm]
          exact hphm

/-! ### The Ant agent (src/ant.py lines 109-144, 161-194) -/

/-- The `Ant` agent: `position` and `action_range` from `Agent.__init__`, plus
`alpha` (default 0.25, unused by the decision code), the action log and the
recognized pheromone names (default `["move", "build"]`). -/
structure Ant where
  position : Coord
  range : ℤ
  alpha : ℚ
  actions : List String
  pheromones : List String
deriving DecidableEq

/-- Model of `random.randint(0, n)`: Python raises `ValueError` when the range
is empty (`n < 0`); otherwise the draw is supplied as a parameter `r` and
reduced into `[0, n]`, so every value of the range is a possible outcome. -/
def randintZero (n : ℤ) (r : ℕ) : Except String ℤ :=
  if n < 0 then .error ("empty range for randrange")
  else .ok ((r : ℤ) % (n + 1))

/-- One step of the dict comprehension in `_selection_action`: compute the
candidate's attractiveness and insert it into the dict. -/
def scoreInsert (d : List (Coord × Scores)) (pos : Coord) (e : Environment)
    (ps : List String) : List (Coord × Scores) × Environment :=
  let r := pheromone_attractiveness pos e ps
  (alSet d pos r.1, r.2)

/-- The dict comprehension `{pos: pheromone_attractiveness(...) for pos in
possible_positions}` over an already-realized list of positions. -/
def scoreAll (ps : List String) :
    List Coord → Environment → List (Coord × Scores) →
    List (Coord × Scores) × Environment
  | [], e, d => (d, e)
  | pos :: rest, e, d =>
    let r := scoreInsert d pos e ps
    scoreAll ps rest r.2 r.1

/-- The fused neighbor loop of `act`: the filter generator yields `pos` once
per occupied neighbor, and the consuming dict comprehension immediately scores
each yield. -/
def nbScoreLoop (ps : List String) (pos : Coord) :
    List Coord → Environment → List (Coord × Scores) →
    List (Coord × Scores) × Environment
  | [], e, d => (d, e)
  | n :: ns, e, d =>
    let r := envGet3 e n.1 n.2.1 n.2.2
    let step := if r.1.isSome then scoreInsert d pos r.2 ps else (d, r.2)
    nbScoreLoop ps pos ns step.2 step.1

/-- The dict comprehension of `_selection_action` applied to the lazy
generator `_filter_adjacent_positions(adjacent_positions(...), env)` as `act`
consumes it: each yielded candidate is scored as soon as it is produced. -/
def buildPP (selfPos : Coord) (ps : List String) :
    List Coord → Environment → List (Coord × Scores) →
    List (Coord × Scores) × Environment
  | [], e, d => (d, e)
  | pos :: rest, e, d =>
    let r := envGet3 e pos.1 pos.2.1 pos.2.2
    if pos = selfPos ∨ r.1.isSome then buildPP selfPos ps rest r.2 d
    else
      let g := if pos.2.1 = 0 then scoreInsert d pos r.2 ps else (d, r.2)
      let nb := nbScoreLoop ps pos (direct_neighbors pos) g.2 g.1
      buildPP selfPos ps rest nb.2 nb.1

/-- The build branch of `_selection_action`: deposit value 1 for every
recognized pheromone at the chosen coordinate. -/
def buildWrites (pos : Coord) (ps : List String) (e : Environment) : Environment :=
  ps.foldl (fun acc p => envSet acc pos.1 pos.2.1 pos.2.2 p 1) e

/-- The no-candidate fallback of `_selection_action` (src/ant.py lines
166-174): `self._position = (randint(0, x), 0, randint(0, z))`, where Python
evaluates `randint(0, x)` first and each call raises `ValueError` when its
upper bound is negative. -/
def fallbackReposition (ant : Ant) (e : Environment) (r1 r2 : ℕ) :
    Except String (Ant × Environment) :=
  match randintZero ant.position.1 r1 with
  | .error msg => .error msg
  | .ok rx =>
    match randintZero ant.position.2.2 r2 with
    | .error msg => .error msg
    | .ok rz => .ok ({ ant with position := (rx, 0, rz) }, e)

/-- The action dispatch of `_selection_action` (src/ant.py lines 177-194) on
the outcome of `_get_most_attractive_position`: move, build (a no-op when the
winning score is zero), or nothing for an unrecognized winning pheromone. -/
def applyChoice (ant : Ant) (e : Environment)
    (choice : Option (Coord × String × ℚ)) : Except String (Ant × Environment) :=
  match choice with
  | none => .error ("cannot choose from an empty sequence")
  | some (pos, ph, m) =>
    if ph = "move" then
      .ok ({ ant with position := pos, actions := ant.actions ++ ["move"] }, e)
    else if ph = "build" then
      if m ≠ 0 then
        .ok ({ ant with actions := ant.actions ++ ["build"] },
          buildWrites pos ant.pheromones e)
      else .ok (ant, e)
    else .ok (ant, e)

/-- The body of `Ant._selection_action` (src/ant.py lines 161-194) after
`positions_pheromone` has been computed: an empty dict triggers the random
ground-plane fallback; otherwise dispatch on the winning pheromone. -/
def selectionCore (ant : Ant) (e : Environment) (pp : List (Coord × Scores))
    (i j r1 r2 : ℕ) : Except String (Ant × Environment) :=
  if pp = [] then fallbackReposition ant e r1 r2
  else applyChoice ant e (get_most_attractive_position pp i j)

/-- `Ant._selection_action` (src/ant.py lines 161-194) on a realized list of
possible positions, with the two choice indices and the two randint draws as
parameters. -/
def Ant.selection_action (ant : Ant) (e : Environment)
    (possible_positions : List Coord) (i j r1 r2 : ℕ) :
    Except String (Ant × Environment) :=
  let r := scoreAll ant.pheromones possible_positions e []
  selectionCore ant r.2 r.1 i j r1 r2

/-- `Agent.act` specialized to `Ant` (src/ant.py lines 118-122): enumerate the
adjacent positions, filter them through the Ant's legality generator, score the
yields (lazily interleaved, here fused into `buildPP`), and execute the
selected action. -/
def Ant.act (ant : Ant) (e : Environment) (i j r1 r2 : ℕ) :
    Except String (Ant × Environment) :=
  let r := buildPP ant.position ant.pheromones
    (adjacent_positions ant.position ant.range) e []
  selectionCore ant r.2 r.1 i j r1 r2

/-! ### Lemmas about the act pipeline -/

theorem viewEq_scoreInsert_snd (d : List (Coord × Scores)) (pos : Coord)
    (e : Environment) (ps : List String) : viewEq (scoreInsert d pos e ps).2 e :=
  viewEq_pheromone_attractiveness_snd pos e ps

theorem viewEq_scoreAll_snd (ps : List String) (l : List Coord) (e : Environment)
    (d : List (Coord × Scores)) : viewEq (scoreAll ps l e d).2 e := by
  induction l generalizing e d with
  | nil => exact viewEq_refl e
  | cons pos rest ih =>
    rw [scoreAll]
    exact viewEq_trans (ih _ _) (viewEq_scoreInsert_snd d pos e ps)

theorem viewEq_nbScoreLoop_snd (ps : List String) (pos : Coord) (ns : List Coord)
    (e : Environment) (d : List (Coord × Scores)) :
    viewEq (nbScoreLoop ps pos ns e d).2 e := by
  induction ns generalizing e d with
  | nil => exact viewEq_refl e
  | cons n t ih =>
    rw [nbScoreLoop]
    by_cases hocc : ((envGet3 e n.1 n.2.1 n.2.2).1).isSome
    · rw [if_pos hocc]
      exact viewEq_trans (ih _ _)
        (viewEq_trans (viewEq_scoreInsert_snd _ _ _ _) (viewEq_envGet3_snd _ _ _ _))
    · rw [if_neg hocc]
      exact viewEq_trans (ih _ _) (viewEq_envGet3_snd _ _ _ _)

theorem viewEq_buildPP_snd (selfPos : Coord) (ps : List String) (l : List Coord)
    (e : Environment) (d : List (Coord × Scores)) :
    viewEq (buildPP selfPos ps l e d).2 e := by
  induction l generalizing e d with
  | nil => exact viewEq_refl e
  | cons pos rest ih =>
    rw [buildPP]
    by_cases hc : pos = selfPos ∨ ((envGet3 e pos.1 pos.2.1 pos.2.2).1).isSome
    · rw [if_pos hc]
      exact viewEq_trans (ih _ _) (viewEq_envGet3_snd _ _ _ _)
    · rw [if_neg hc]
      by_cases hg : pos.2.1 = 0
      · rw [if_pos hg]
        exact viewEq_trans (ih _ _) (viewEq_trans (viewEq_nbScoreLoop_snd _ _ _ _ _)
          (viewEq_trans (viewEq_scoreInsert_snd _ _ _ _) (viewEq_envGet3_snd _ _ _ _)))
      · rw [if_neg hg]
        exact viewEq_trans (ih _ _) (viewEq_trans (viewEq_nbScoreLoop_snd _ _ _ _ _)
          (viewEq_envGet3_snd _ _ _ _))

theorem alSet_keys {κ α : Type} [DecidableEq κ] (l : List (κ × α)) (k k' : κ) (v : α) :
    (∃ v', (k', v') ∈ alSet l k v) ↔ (∃ v', (k', v') ∈ l) ∨ k' = k := by
  induction l with
  | nil =>
    constructor
    · rintro ⟨v', hv'⟩
      simp only [alSet, List.mem_singleton, Prod.mk.injEq] at hv'
      exact Or.inr hv'.1
    · rintro (⟨v', hv'⟩ | rfl)
      · simp at hv'
      · exact ⟨v, by simp [alSet]⟩
  | cons hd t ih =>
    obtain ⟨k0, v0⟩ := hd
    by_cases h0 : k = k0
    · subst h0
      have hset : alSet ((k, v0) :: t) k v = (k, v) :: t := by simp [alSet]
      rw [hset]
      constructor
      · rintro ⟨v', hv'⟩
        rcases List.mem_cons.mp hv' with heq | hmem
        · exact Or.inr (congrArg Prod.fst heq)
        · exact Or.inl ⟨v', List.mem_cons_of_mem _ hmem⟩
      · rintro (⟨v', hv'⟩ | rfl)
        · rcases List.mem_cons.mp hv' with heq | hmem
          · have hk : k' = k := congrArg Prod.fst heq
            subst hk
            exact ⟨v, List.mem_cons_self _ _⟩
          · exact ⟨v', List.mem_cons_of_mem _ hmem⟩
        · exact ⟨v, List.mem_cons_self _ _⟩
    · have hset : alSet ((k0, v0) :: t) k v = (k0, v0) :: alSet t k v := by
        simp [alSet, h0]
      rw [hset]
      constructor
      · rintro ⟨v', hv'⟩
        rcases List.mem_cons.mp hv' with heq | hmem
        · exact Or.inl ⟨v', List.mem_cons.mpr (Or.inl heq)⟩
        · rcases ih.mp ⟨v', hmem⟩ with ⟨v'', h⟩ | hk
          · exact Or.inl ⟨v'', List.mem_cons_of_mem _ h⟩
          · exact Or.inr hk
      · rintro (⟨v', hv'⟩ | rfl)
        · rcases List.mem_cons.mp hv' with heq | hmem
          · exact ⟨v', List.mem_cons.mpr (Or.inl heq)⟩
          · rcases ih.mpr (Or.inl ⟨v', hmem⟩) with ⟨v'', h⟩
            exact ⟨v'', List.mem_cons_of_mem _ h⟩
        · rcases ih.mpr (Or.inr rfl) with ⟨v'', h⟩
          exact ⟨v'', List.mem_cons_of_mem _ h⟩

theorem scoreInsert_keys (d : List (Coord × Scores)) (pos : Coord) (e : Environment)
    (ps : List String) (q : Coord) :
    (∃ sc, (q, sc) ∈ (scoreInsert d pos e ps).1) ↔
      (∃ sc, (q, sc) ∈ d) ∨ q = pos := alSet_keys d pos q _

theorem nbScoreLoop_keys (ps : List String) (pos : Coord) (ns : List Coord)
    (e : Environment) (d : List (Coord × Scores)) (q : Coord) :
    (∃ sc, (q, sc) ∈ (nbScoreLoop ps pos ns e d).1) ↔
      (∃ sc, (q, sc) ∈ d) ∨
      (q = pos ∧ ∃ n ∈ ns, envVal3 e n.1 n.2.1 n.2.2 ≠ none) := by
  induction ns generalizing e d with
  | nil => simp [nbScoreLoop]
  | cons n t ih =>
    rw [nbScoreLoop]
    have hval : (envGet3 e n.1 n.2.1 n.2.2).1 = envVal3 e n.1 n.2.1 n.2.2 :=
      envGet3_fst e n.1 n.2.1 n.2.2
    have hrest : ∀ m : Coord, envVal3 (envGet3 e n.1 n.2.1 n.2.2).2 m.1 m.2.1 m.2.2 =
        envVal3 e m.1 m.2.1 m.2.2 := fun m =>
      envVal3_congr (viewEq_envGet3_snd e n.1 n.2.1 n.2.2) m.1 m.2.1 m.2.2
    have hrestS : ∀ m : Coord,
        envVal3 (scoreInsert d pos (envGet3 e n.1 n.2.1 n.2.2).2 ps).2 m.1 m.2.1 m.2.2 =
        envVal3 e m.1 m.2.1 m.2.2 := fun m =>
      envVal3_congr (viewEq_trans (viewEq_scoreInsert_snd _ _ _ _)
        (viewEq_envGet3_snd e n.1 n.2.1 n.2.2)) m.1 m.2.1 m.2.2
    by_cases hocc : ((envGet3 e n.1 n.2.1 n.2.2).1).isSome
    · rw [if_pos hocc, ih, scoreInsert_keys]
      constructor
      · rintro ((hd | rfl) | ⟨rfl, m, hm, hmne⟩)
        · exact Or.inl hd
        · refine Or.inr ⟨rfl, n, List.mem_cons_self _ _, ?_⟩
          rw [← hval]
          exact Option.isSome_iff_ne_none.mp hocc
        · exact Or.inr ⟨rfl, m, List.mem_cons_of_mem _ hm, by rw [← hrestS m]; exact hmne⟩
      · rintro (hd | ⟨rfl, m, hm, hmne⟩)
        · exact Or.inl (Or.inl hd)
        · rcases List.mem_cons.mp hm with rfl | hm'
          · exact Or.inl (Or.inr rfl)
          · exact Or.inr ⟨rfl, m, hm', by rw [hrestS m]; exact hmne⟩
    · rw [if_neg hocc, ih]
      constructor
      · rintro (hd | ⟨rfl, m, hm, hmne⟩)
        · exact Or.inl hd
        · exact Or.inr ⟨rfl, m, List.mem_cons_of_mem _ hm, by rw [← hrest m]; exact hmne⟩
      · rintro (hd | ⟨rfl, m, hm, hmne⟩)
        · exact Or.inl hd
        · rcases List.mem_cons.mp hm with rfl | hm'
          · exfalso
            rw [← hval] at hmne
            exact hmne (Option.not_isSome_iff_eq_none.mp (by simpa using hocc))
          · exact Or.inr ⟨rfl, m, hm', by rw [hrest m]; exact hmne⟩

theorem buildPP_keys (selfPos : Coord) (ps : List String) (l : List Coord)
    (e : Environment) (d : List (Coord × Scores)) (q : Coord) :
    (∃ sc, (q, sc) ∈ (buildPP selfPos ps l e d).1) ↔
      (∃ sc, (q, sc) ∈ d) ∨
      (q ∈ l ∧ q ≠ selfPos ∧ envVal3 e q.1 q.2.1 q.2.2 = none ∧
        (q.2.1 = 0 ∨ ∃ n ∈ direct_neighbors q, envVal3 e n.1 n.2.1 n.2.2 ≠ none)) := by
  induction l generalizing e d with
  | nil => simp [buildPP]
  | cons pos rest ih =>
    rw [buildPP]
    have hval : (envGet3 e pos.1 pos.2.1 pos.2.2).1 = envVal3 e pos.1 pos.2.1 pos.2.2 :=
      envGet3_fst e pos.1 pos.2.1 pos.2.2
    have hview1 : viewEq (envGet3 e pos.1 pos.2.1 pos.2.2).2 e :=
      viewEq_envGet3_snd e pos.1 pos.2.1 pos.2.2
    have hrest1 : ∀ m : Coord, envVal3 (envGet3 e pos.1 pos.2.1 pos.2.2).2 m.1 m.2.1
        m.2.2 = envVal3 e m.1 m.2.1 m.2.2 := fun m => envVal3_congr hview1 m.1 m.2.1 m.2.2
    by_cases hc : pos = selfPos ∨ ((envGet3 e pos.1 pos.2.1 pos.2.2).1).isSome
    · rw [if_pos hc, ih]
      constructor
      · rintro (hd | ⟨hq, hne, habs, hlaw⟩)
        · exact Or.inl hd
        · exact Or.inr ⟨List.mem_cons_of_mem _ hq, hne, by rw [← hrest1 q]; exact habs,
            hlaw.imp id fun ⟨n, hn, hnne⟩ => ⟨n, hn, by rw [← hrest1 n]; exact hnne⟩⟩
      · rintro (hd | ⟨hq, hne, habs, hlaw⟩)
        · exact Or.inl hd
        · rcases List.mem_cons.mp hq with rfl | hq'
          · exfalso
            rcases hc with hc | hc
            · exact hne hc
            · rw [hval, habs] at hc
              simp at hc
          · exact Or.inr ⟨hq', hne, by rw [hrest1 q]; exact habs,
              hlaw.imp id fun ⟨n, hn, hnne⟩ => ⟨n, hn, by rw [hrest1 n]; exact hnne⟩⟩
    · rw [if_neg hc]
      push_neg at hc
      obtain ⟨hnself, hunocc⟩ := hc
      have habs0 : envVal3 e pos.1 pos.2.1 pos.2.2 = none := by
        rw [← hval]
        exact Option.not_isSome_iff_eq_none.mp (by simpa using hunocc)
      set g := if pos.2.1 = 0 then scoreInsert d pos (envGet3 e pos.1 pos.2.1
        pos.2.2).2 ps else (d, (envGet3 e pos.1 pos.2.1 pos.2.2).2) with hgdef
      have hviewg : viewEq g.2 e := by
        rw [hgdef]
        by_cases h0 : pos.2.1 = 0
        · rw [if_pos h0]
          exact viewEq_trans (viewEq_scoreInsert_snd _ _ _ _) hview1
        · rw [if_neg h0]
          exact hview1
      have hgkeys : (∃ sc, (q, sc) ∈ g.1) ↔
          (∃ sc, (q, sc) ∈ d) ∨ (q = pos ∧ pos.2.1 = 0) := by
        rw [hgdef]
        by_cases h0 : pos.2.1 = 0
        · rw [if_pos h0]
          rw [scoreInsert_keys]
          simp [h0]
        · rw [if_neg h0]
          simp [h0]
      have hrestg : ∀ m : Coord, envVal3 g.2 m.1 m.2.1 m.2.2 =
          envVal3 e m.1 m.2.1 m.2.2 := fun m => envVal3_congr hviewg m.1 m.2.1 m.2.2
      rw [ih, nbScoreLoop_keys, hgkeys]
      have hrestnb : ∀ m : Coord,
          envVal3 (nbScoreLoop ps pos (direct_neighbors pos) g.2 g.1).2 m.1 m.2.1 m.2.2 =
          envVal3 e m.1 m.2.1 m.2.2 := fun m =>
        envVal3_congr (viewEq_trans (viewEq_nbScoreLoop_snd _ _ _ _ _) hviewg) m.1
          m.2.1 m.2.2
      constructor
      · rintro (((hd | ⟨rfl, h0⟩) | ⟨rfl, n, hn, hnne⟩) | ⟨hq, hne, habs, hlaw⟩)
        · exact Or.inl hd
        · exact Or.inr ⟨List.mem_cons_self _ _, hnself, habs0, Or.inl h0⟩
        · exact Or.inr ⟨List.mem_cons_self _ _, hnself, habs0,
            Or.inr ⟨n, hn, by rw [← hrestg n]; exact hnne⟩⟩
        · exact Or.inr ⟨List.mem_cons_of_mem _ hq, hne, by rw [← hrestnb q]; exact habs,
            hlaw.imp id fun ⟨n, hn, hnne⟩ => ⟨n, hn, by rw [← hrestnb n]; exact hnne⟩⟩
      · rintro (hd | ⟨hq, hne, habs, hlaw⟩)
        · exact Or.inl (Or.inl (Or.inl hd))
        · rcases List.mem_cons.mp hq with rfl | hq'
          · rcases hlaw with h0 | ⟨n, hn, hnne⟩
            · exact Or.inl (Or.inl (Or.inr ⟨rfl, h0⟩))
            · exact Or.inl (Or.inr ⟨rfl, n, hn, by rw [hrestg n]; exact hnne⟩)
          · exact Or.inr ⟨hq', hne, by rw [hrestnb q]; exact habs,
              hlaw.imp id fun ⟨n, hn, hnne⟩ => ⟨n, hn, by rw [hrestnb n]; exact hnne⟩⟩

theorem envVal4_buildWrites_of_not_mem (pos : Coord) (ps : List String)
    (e : Environment) (x y z : ℤ) (p : String) (hp : p ∉ ps) :
    envVal4 (buildWrites pos ps e) x y z p = envVal4 e x y z p := by
  induction ps generalizing e with
  | nil => rfl
  | cons p0 rest ih =>
    have hstep : buildWrites pos (p0 :: rest) e =
        buildWrites pos rest (envSet e pos.1 pos.2.1 pos.2.2 p0 1) := rfl
    rw [hstep, ih _ (fun h => hp (List.mem_cons_of_mem _ h)), envVal4_envSet]
    have hne : p ≠ p0 := fun h => hp (h ▸ List.mem_cons_self _ _)
    simp [hne]

theorem envVal4_buildWrites_of_mem (pos : Coord) (ps : List String) (e : Environment)
    (p : String) (hp : p ∈ ps) :
    envVal4 (buildWrites pos ps e) pos.1 pos.2.1 pos.2.2 p = some 1 := by
  induction ps generalizing e with
  | nil => simp at hp
  | cons p0 rest ih =>
    have hstep : buildWrites pos (p0 :: rest) e =
        buildWrites pos rest (envSet e pos.1 pos.2.1 pos.2.2 p0 1) := rfl
    rw [hstep]
    by_cases hmem : p ∈ rest
    · exact ih _ hmem
    · have hp0 : p = p0 := by
        rcases List.mem_cons.mp hp with h | h
        · exact h
        · exact absurd h hmem
      rw [envVal4_buildWrites_of_not_mem _ _ _ _ _ _ _ hmem, envVal4_envSet]
      simp [hp0]

/-! ### Claim theorems -/

/-- Claim C7: reading the Environment with a key of neither exactly 3 nor
exactly 4 components raises a TypeError rather than returning an absent
result, and writing with a key of anything other than exactly 4 components
likewise raises; a well-formed read of an absent coordinate or unknown signal
returns a silent absent result and never raises. -/
theorem c7_key_arity (e : Environment) (key : List Comp) (v : ℚ) :
    ((∃ msg, e.getitem key = .error msg) ↔ key.length ≠ 3 ∧ key.length ≠ 4) ∧
    ((∃ msg, e.setitem key v = .error msg) ↔ key.length ≠ 4) ∧
    (∀ x y z p : Comp,
      emptyEnv.getitem [x, y, z, p] =
        .ok (GetResult.phero none, emptyEnv.materialize x y z) ∧
      emptyEnv.getitem [x, y, z] =
        .ok (GetResult.cell none, emptyEnv.materialize x y z)) := by
  refine ⟨?_, ?_, ?_⟩
  · match key with
    | [] => simp [Environment.getitem]
    | [a] => simp [Environment.getitem]
    | [a, b] => simp [Environment.getitem]
    | [a, b, c] => simp [Environment.getitem]
    | [a, b, c, d] => simp [Environment.getitem]
    | a :: b :: c :: d :: e' :: t =>
      simp only [Environment.getitem, List.length_cons]
      constructor
      · intro
        omega
      · intro
        exact ⟨_, rfl⟩
  · match key with
    | [] => simp [Environment.setitem]
    | [a] => simp [Environment.setitem]
    | [a, b] => simp [Environment.setitem]
    | [a, b, c] => simp [Environment.setitem]
    | [a, b, c, d] => simp [Environment.setitem]
    | a :: b :: c :: d :: e' :: t =>
      simp only [Environment.setitem, List.length_cons]
      constructor
      · intro
        omega
      · intro
        exact ⟨_, rfl⟩
  · intro x y z p
    constructor
    · show Except.ok (GetResult.phero (emptyEnv.get4 x y z p).1, _) = _
      have hv : (emptyEnv.get4 x y z p).1 = none := by
        simp [Environment.get4, Environment.getCell, emptyEnv, alGet]
      rw [hv]
      rfl
    · show Except.ok (GetResult.cell (emptyEnv.get3 x y z).1, _) = _
      have hv : (emptyEnv.get3 x y z).1 = none := by
        simp [Environment.get3, Environment.getCell, emptyEnv, alGet]
      rw [hv]
      rfl

/-- Claim C9: writing then reading the same `(coordinate, signal)` pair
returns exactly the written value, and writing a second, different signal at
the same coordinate leaves the first signal's read value unchanged while the
whole-cell read contains both entries. -/
theorem c9_write_read (e : Environment) (x y z : ℤ) (p p' : String) (v v' : ℚ)
    (hne : p' ≠ p) :
    (envGet4 (envSet e x y z p v) x y z p).1 = some v ∧
    (envGet4 (envSet (envSet e x y z p v) x y z p' v') x y z p).1 = some v ∧
    (∃ c : Cell,
      (envGet3 (envSet (envSet e x y z p v) x y z p' v') x y z).1 = some c ∧
      (Comp.s p, v) ∈ c ∧ (Comp.s p', v') ∈ c) := by
  have hps : p ≠ p' := fun h => hne h.symm
  have hsp : Comp.s p ≠ Comp.s p' := by simp [hps]
  refine ⟨?_, ?_, ?_⟩
  · rw [envGet4_fst, envVal4_envSet]
    simp
  · rw [envGet4_fst, envVal4_envSet]
    rw [if_neg (by simp [hps])]
    rw [envVal4_envSet]
    simp
  · rw [envGet3_fst, envVal3_envSet_same]
    refine ⟨_, rfl, ?_, ?_⟩
    · have hgc : (envSet e x y z p v).getCell (.i x) (.i y) (.i z) =
          alSet (e.getCell (.i x) (.i y) (.i z)) (.s p) v := by
        unfold envSet
        rw [getCell_set4, if_pos ⟨rfl, rfl, rfl⟩]
      rw [hgc]
      apply mem_of_alGet_eq_some
      rw [alGet_alSet, if_neg hsp, alGet_alSet, if_pos rfl]
    · apply mem_of_alGet_eq_some
      rw [alGet_alSet, if_pos rfl]

/-- Claim C9 witness: a concrete write/write/read round trip. -/
theorem c9_write_read_witness :
    (envGet4 (envSet emptyEnv 0 0 0 ("pheromone-1") 12) 0 0 0 ("pheromone-1")).1 =
      some 12 ∧
    (envGet4 (envSet (envSet emptyEnv 0 0 0 ("pheromone-1") 12) 0 0 0
        ("pheromone-2") 23) 0 0 0 ("pheromone-1")).1 = some 12 ∧
    (∃ c : Cell,
      (envGet3 (envSet (envSet emptyEnv 0 0 0 ("pheromone-1") 12) 0 0 0
          ("pheromone-2") 23) 0 0 0).1 = some c ∧
      (Comp.s ("pheromone-1"), (12 : ℚ)) ∈ c ∧ (Comp.s ("pheromone-2"), (23 : ℚ)) ∈ c) :=
  c9_write_read emptyEnv 0 0 0 ("pheromone-1") ("pheromone-2") 12 23 (by decide)

/-- Claim C2: a candidate produced by `adjacent_positions` is kept by the
Ant's legality filter (yielded at least once) iff its whole-cell read is
absent and it is on the ground plane or has an occupied direct neighbor. -/
theorem c2_legality_filter (selfPos : Coord) (increment : ℤ) (e : Environment)
    (q : Coord) :
    q ∈ (filter_adjacent_positions selfPos
        (adjacent_positions selfPos increment) e).1 ↔
      q ∈ adjacent_positions selfPos increment ∧
      envVal3 e q.1 q.2.1 q.2.2 = none ∧
      (q.2.1 = 0 ∨ ∃ n ∈ direct_neighbors q, envVal3 e n.1 n.2.1 n.2.2 ≠ none) := by
  rw [mem_filter_adjacent_positions]
  constructor
  · rintro ⟨hq, _, habs, hlaw⟩
    exact ⟨hq, habs, hlaw⟩
  · rintro ⟨hq, habs, hlaw⟩
    exact ⟨hq, adjacent_positions_ne_self _ _ _ hq, habs, hlaw⟩

/-- Claim C2 witness: with a cube at `(1, 0, 0)`, the candidate `(1, 1, 0)` of
an ant at the origin is legal (test
`test_filter_adjacent_positions_above_cube_position`). -/
theorem c2_legality_filter_witness :
    (1, 1, 0) ∈ (filter_adjacent_positions (0, 0, 0)
        (adjacent_positions (0, 0, 0) 1)
        (envSet emptyEnv 1 0 0 ("pheromone-1") 12)).1 ↔
      (1, 1, 0) ∈ adjacent_positions (0, 0, 0) 1 ∧
      envVal3 (envSet emptyEnv 1 0 0 ("pheromone-1") 12) 1 1 0 = none ∧
      ((1 : ℤ) = 0 ∨ ∃ n ∈ direct_neighbors ((1 : ℤ), (1 : ℤ), (0 : ℤ)),
        envVal3 (envSet emptyEnv 1 0 0 ("pheromone-1") 12) n.1 n.2.1 n.2.2 ≠ none) :=
  c2_legality_filter (0, 0, 0) 1 (envSet emptyEnv 1 0 0 ("pheromone-1") 12) (1, 1, 0)

/-- Claim C8: the attractiveness score maps each requested signal name to the
sum of that signal's stored value (absent read as 0) over exactly the six
direct neighbors of the coordinate — the coordinates differing by ±1 in
exactly one axis, with no ground-plane exclusion. -/
theorem c8_attractiveness (pos : Coord) (e : Environment) (ps : List String)
    (p : String) (hp : p ∈ ps) :
    alGet (pheromone_attractiveness pos e ps).1 p =
      some (((direct_neighbors pos).map fun n =>
        (envVal4 e n.1 n.2.1 n.2.2 p).getD 0).sum) ∧
    (∀ q : Coord, q ∈ direct_neighbors pos ↔
      ((q.1 = pos.1 ∧ q.2.2 = pos.2.2 ∧
          (q.2.1 = pos.2.1 + 1 ∨ q.2.1 = pos.2.1 - 1)) ∨
       (q.2.1 = pos.2.1 ∧ q.2.2 = pos.2.2 ∧
          (q.1 = pos.1 + 1 ∨ q.1 = pos.1 - 1)) ∨
       (q.1 = pos.1 ∧ q.2.1 = pos.2.1 ∧
          (q.2.2 = pos.2.2 + 1 ∨ q.2.2 = pos.2.2 - 1)))) ∧
    (direct_neighbors pos).length = 6 ∧ (direct_neighbors pos).Nodup := by
  refine ⟨?_, fun q => mem_direct_neighbors pos q, direct_neighbors_length pos,
    direct_neighbors_nodup pos⟩
  rw [alGet_pheromone_attractiveness pos e ps p hp]
  rfl

/-- Claim C8 witness: the attractiveness of the origin for `"move"` in the
empty environment is the (zero) sum over its six direct neighbors. -/
theorem c8_attractiveness_witness :
    alGet (pheromone_attractiveness (0, 0, 0) emptyEnv ["move", "build"]).1
        ("move") =
      some (((direct_neighbors ((0 : ℤ), (0 : ℤ), (0 : ℤ))).map fun n =>
        (envVal4 emptyEnv n.1 n.2.1 n.2.2 ("move")).getD 0).sum) :=
  (c8_attractiveness (0, 0, 0) emptyEnv ["move", "build"] ("move") (by simp)).1

/-- Claim C3: for a non-empty score map whose candidates each carry at least
one signal, the selection returns the maximum value across all candidates and
signals; the chosen position and signal attain it, and every attaining
`(candidate, signal)` pair is a possible outcome of the random draws. -/
theorem c3_selection (pp : List (Coord × Scores)) (hne : pp ≠ [])
    (hc : ∀ it ∈ pp, it.2 ≠ []) :
    ∃ M : ℚ,
      (∀ (pos : Coord) (pheros : Scores) (ph : String) (v : ℚ),
        (pos, pheros) ∈ pp → (ph, v) ∈ pheros → v ≤ M) ∧
      (∀ i j : ℕ, ∃ (pos : Coord) (ph : String) (pheros : Scores),
        get_most_attractive_position pp i j = some (pos, ph, M) ∧
        (pos, pheros) ∈ pp ∧ (ph, M) ∈ pheros) ∧
      (∀ (pos : Coord) (pheros : Scores) (ph : String),
        (pos, pheros) ∈ pp → (ph, M) ∈ pheros →
        ∃ i j : ℕ, get_most_attractive_position pp i j = some (pos, ph, M)) := by
  refine ⟨lastMax pp, ?_, ?_, ?_⟩
  · exact fun pos pheros ph v hmem hv => le_lastMax pp pos pheros ph v hmem hv
  · exact fun i j => gmap_spec pp i j hne hc
  · exact fun pos pheros ph hmem hph => gmap_reachable pp pos pheros ph hmem hph

/-- Claim C3 witness: the two-candidate score map from the repository's
`test_get_random_most_attractive_position`. -/
theorem c3_selection_witness :
    ∃ M : ℚ,
      (∀ (pos : Coord) (pheros : Scores) (ph : String) (v : ℚ),
        (pos, pheros) ∈ ([(((1 : ℤ), (0 : ℤ), (0 : ℤ)), [("move", (1 : ℚ)),
            ("build", 1)]), (((0 : ℤ), (1 : ℤ), (0 : ℤ)), [("move", 2), ("build", 1)])] :
          List (Coord × Scores)) → (ph, v) ∈ pheros → v ≤ M) ∧
      (∀ i j : ℕ, ∃ (pos : Coord) (ph : String) (pheros : Scores),
        get_most_attractive_position [(((1 : ℤ), (0 : ℤ), (0 : ℤ)),
            [("move", (1 : ℚ)), ("build", 1)]),
          (((0 : ℤ), (1 : ℤ), (0 : ℤ)), [("move", 2), ("build", 1)])] i j =
          some (pos, ph, M) ∧
        (pos, pheros) ∈ ([(((1 : ℤ), (0 : ℤ), (0 : ℤ)), [("move", (1 : ℚ)),
            ("build", 1)]), (((0 : ℤ), (1 : ℤ), (0 : ℤ)), [("move", 2), ("build", 1)])] :
          List (Coord × Scores)) ∧ (ph, M) ∈ pheros) ∧
      (∀ (pos : Coord) (pheros : Scores) (ph : String),
        (pos, pheros) ∈ ([(((1 : ℤ), (0 : ℤ), (0 : ℤ)), [("move", (1 : ℚ)),
            ("build", 1)]), (((0 : ℤ), (1 : ℤ), (0 : ℤ)), [("move", 2), ("build", 1)])] :
          List (Coord × Scores)) → (ph, M) ∈ pheros →
        ∃ i j : ℕ, get_most_attractive_position [(((1 : ℤ), (0 : ℤ), (0 : ℤ)),
            [("move", (1 : ℚ)), ("build", 1)]),
          (((0 : ℤ), (1 : ℤ), (0 : ℤ)), [("move", 2), ("build", 1)])] i j =
          some (pos, ph, M)) :=
  c3_selection [(((1 : ℤ), (0 : ℤ), (0 : ℤ)), [("move", (1 : ℚ)), ("build", 1)]),
    (((0 : ℤ), (1 : ℤ), (0 : ℤ)), [("move", 2), ("build", 1)])] (by simp) (by simp)

/-- Claim C6 counterexample: reading the never-written coordinate `(0, 0, 0)`
of a fresh environment returns an absent result but mutates the environment's
state — the nested defaultdicts materialize a cell with zero signal entries.
This contradicts both "only writes materialize a coordinate's cell" and
"reading ... without changing the Environment's state". -/
theorem c6_counterexample :
    (envGet3 emptyEnv 0 0 0).1 = none ∧
    (envGet3 emptyEnv 0 0 0).2 ≠ emptyEnv ∧
    ((envGet3 emptyEnv 0 0 0).2).cells =
      [(Comp.i 0, [(Comp.i 0, [(Comp.i 0, [])])])] := by
  refine ⟨rfl, ?_, rfl⟩
  intro h
  have : ((envGet3 emptyEnv 0 0 0).2).cells = emptyEnv.cells := by rw [h]
  simp [envGet3, Environment.get3, Environment.materialize, emptyEnv, ddUpd,
    alGet] at this

/-- Claim C6 (amended): cells created by a write carry at least one signal
entry; a read returns exactly the observable view, and although a read of an
absent coordinate materializes an empty cell (mutating internal state), every
observable read — whole-cell or single-signal, at any coordinate — is
unchanged by it. -/
theorem c6_lazy_cells (e : Environment) (x y z a b c : ℤ) (p : String) (v : ℚ) :
    (envGet3 e x y z).1 = envVal3 e x y z ∧
    (envGet4 e x y z p).1 = envVal4 e x y z p ∧
    envVal3 (envGet3 e a b c).2 x y z = envVal3 e x y z ∧
    envVal4 (envGet3 e a b c).2 x y z p = envVal4 e x y z p ∧
    envVal3 (envGet4 e a b c p).2 x y z = envVal3 e x y z ∧
    (∃ cell : Cell, envVal3 (envSet e x y z p v) x y z = some cell ∧ cell ≠ []) := by
  refine ⟨envGet3_fst e x y z, envGet4_fst e x y z p,
    envVal3_congr (viewEq_envGet3_snd e a b c) x y z,
    envVal4_congr (viewEq_envGet3_snd e a b c) x y z p,
    envVal3_congr (viewEq_envGet4_snd e a b c p) x y z, ?_⟩
  rw [envVal3_envSet_same]
  exact ⟨_, rfl, alSet_ne_nil _ _ _⟩

/-- All pheromone entries stored anywhere in the environment are zero. -/
def allZero (e : Environment) : Prop :=
  ∀ kx ∈ e.cells, ∀ ky ∈ kx.2, ∀ kz ∈ ky.2, ∀ pv ∈ kz.2, pv.2 = (0 : ℚ)

/-- All pheromone entries stored anywhere in the environment are non-negative
(the simulation's convention for signal values). -/
def allNonneg (e : Environment) : Prop :=
  ∀ kx ∈ e.cells, ∀ ky ∈ kx.2, ∀ kz ∈ ky.2, ∀ pv ∈ kz.2, (0 : ℚ) ≤ pv.2

/-- Mapping a function that fixes every element of a list is the identity. -/
theorem map_id_of_all {α : Type} (l : List α) (f : α → α) (h : ∀ a ∈ l, f a = a) :
    l.map f = l := by
  induction l with
  | nil => rfl
  | cons x t ih =>
    rw [List.map_cons, h x (List.mem_cons_self _ _),
      ih fun a ha => h a (List.mem_cons_of_mem _ ha)]

/-- Claim C1: one evaporation call with default settings replaces every stored
(non-negative) signal value `v` with `v * 0.95`; an explicit decay amount of 2
clamps a stored value of 1 to exactly 0; an environment whose signals are all
zero is left exactly as it is (zeros remain stored), and a forced decay brings
all non-negative values to the floor, so repeated evaporation is idempotent
once every value has reached it. -/
theorem c1_evaporate :
    (∀ (e : Environment) (x y z : ℤ) (p : String) (v : ℚ), 0 ≤ v →
      envVal4 e x y z p = some v →
      envVal4 (e.evaporate (1/20) 0) x y z p = some (v * (19/20))) ∧
    (∀ (e : Environment) (x y z : ℤ) (p : String),
      envVal4 e x y z p = some 1 →
      envVal4 (e.evaporate 2 0) x y z p = some 0) ∧
    (∀ e : Environment, allZero e → e.evaporate (1/20) 0 = e) ∧
    (∀ e : Environment, allNonneg e → allZero (e.evaporate 2 0)) := by
  refine ⟨?_, ?_, ?_, ?_⟩
  · intro e x y z p v hv hst
    rw [envVal4_evaporate, hst]
    have hd : decayVal (1/20) 0 v = v * (19/20) := by
      unfold decayVal
      rw [max_eq_right (by nlinarith)]
      ring
    rw [Option.map_some', hd]
  · intro e x y z p hst
    rw [envVal4_evaporate, hst]
    have hd : decayVal 2 0 1 = 0 := by
      unfold decayVal
      norm_num
    rw [Option.map_some', hd]
  · intro e hz
    unfold Environment.evaporate
    cases e with
    | mk cells =>
      simp only [Environment.mk.injEq]
      apply map_id_of_all
      intro kx hkx
      have h2 : (kx.2.map fun ky => (ky.1, ky.2.map fun kz =>
          (kz.1, kz.2.map fun pv => (pv.1, decayVal (1/20) 0 pv.2)))) = kx.2 := by
        apply map_id_of_all
        intro ky hky
        have h1 : (ky.2.map fun kz =>
            (kz.1, kz.2.map fun pv => (pv.1, decayVal (1/20) 0 pv.2))) = ky.2 := by
          apply map_id_of_all
          intro kz hkz
          have h0 : (kz.2.map fun pv => (pv.1, decayVal (1/20) 0 pv.2)) = kz.2 := by
            apply map_id_of_all
            intro pv hpv
            have hz0 : pv.2 = 0 := hz kx hkx ky hky kz hkz pv hpv
            have hdv : decayVal (1/20) 0 pv.2 = pv.2 := by
              rw [hz0]
              unfold decayVal
              norm_num
            rw [hdv]
          rw [h0]
        rw [h1]
      rw [h2]
  · intro e hnn
    intro kx' hkx' ky' hky' kz' hkz' pv' hpv'
    unfold Environment.evaporate at hkx'
    rcases List.mem_map.mp hkx' with ⟨kx, hkx, rfl⟩
    rcases List.mem_map.mp hky' with ⟨ky, hky, rfl⟩
    rcases List.mem_map.mp hkz' with ⟨kz, hkz, rfl⟩
    rcases List.mem_map.mp hpv' with ⟨pv, hpv, rfl⟩
    have hnn0 : (0 : ℚ) ≤ pv.2 := hnn kx hkx ky hky kz hkz pv hpv
    show decayVal 2 0 pv.2 = 0
    unfold decayVal
    rw [max_eq_left (by nlinarith)]

/-- Claim C1 witness: evaporating a freshly written unit signal with default
settings yields `1 * 0.95`; an explicit decay amount of 2 yields exactly 0;
and the empty environment is a fixed point. -/
theorem c1_evaporate_witness :
    envVal4 ((envSet emptyEnv 0 0 0 ("pheromone-1") 1).evaporate (1/20) 0)
        0 0 0 ("pheromone-1") = some (1 * (19/20)) ∧
    envVal4 ((envSet emptyEnv 0 0 0 ("pheromone-1") 1).evaporate 2 0)
        0 0 0 ("pheromone-1") = some 0 ∧
    emptyEnv.evaporate (1/20) 0 = emptyEnv :=
  ⟨c1_evaporate.1 (envSet emptyEnv 0 0 0 ("pheromone-1") 1) 0 0 0 ("pheromone-1") 1
      (by simp) (by rw [envVal4_envSet]; simp),
    c1_evaporate.2.1 (envSet emptyEnv 0 0 0 ("pheromone-1") 1) 0 0 0 ("pheromone-1")
      (by rw [envVal4_envSet]; simp),
    c1_evaporate.2.2.1 emptyEnv (by intro kx hkx; simp [emptyEnv] at hkx)⟩

/-- Injectivity of a successful result: both components agree. -/
theorem okPairInj {α β : Type} {a : α} {b : β} {c : α} {d : β}
    (h : (Except.ok (a, b) : Except String (α × β)) = .ok (c, d)) : c = a ∧ d = b := by
  injection h with h'
  exact ⟨(congrArg Prod.fst h').symm, (congrArg Prod.snd h').symm⟩

/-- Claim C10: if an Ant's position has `y ≥ 0` and `act` completes without
raising, the new position still has `y ≥ 0` — a move targets a candidate of
`adjacent_positions` (which excludes negative `y`), the fallback sets `y` to
exactly 0, and the remaining branches leave the position unchanged. -/
theorem c10_y_invariant (ant : Ant) (e : Environment) (i j r1 r2 : ℕ)
    (ant' : Ant) (e' : Environment) (hy : 0 ≤ ant.position.2.1)
    (h : ant.act e i j r1 r2 = .ok (ant', e')) : 0 ≤ ant'.position.2.1 := by
  unfold Ant.act selectionCore at h
  by_cases hpp : (buildPP ant.position ant.pheromones
      (adjacent_positions ant.position ant.range) e []).1 = []
  · rw [if_pos hpp] at h
    by_cases hx : ant.position.1 < 0
    · have hfb : fallbackReposition ant (buildPP ant.position ant.pheromones
          (adjacent_positions ant.position ant.range) e []).2 r1 r2 =
          .error ("empty range for randrange") := by
        unfold fallbackReposition randintZero
        rw [if_pos hx]
      rw [hfb] at h
      exact Except.noConfusion h
    · by_cases hz : ant.position.2.2 < 0
      · have hfb : fallbackReposition ant (buildPP ant.position ant.pheromones
            (adjacent_positions ant.position ant.range) e []).2 r1 r2 =
            .error ("empty range for randrange") := by
          unfold fallbackReposition randintZero
          rw [if_neg hx, if_pos hz]
        rw [hfb] at h
        exact Except.noConfusion h
      · have hfb : fallbackReposition ant (buildPP ant.position ant.pheromones
            (adjacent_positions ant.position ant.range) e []).2 r1 r2 =
            .ok ({ ant with position := ((r1 : ℤ) % (ant.position.1 + 1), 0,
                (r2 : ℤ) % (ant.position.2.2 + 1)) },
              (buildPP ant.position ant.pheromones
                (adjacent_positions ant.position ant.range) e []).2) := by
          unfold fallbackReposition randintZero
          rw [if_neg hx, if_neg hz]
        rw [hfb] at h
        obtain ⟨h1, _⟩ := okPairInj h
        subst h1
        exact le_refl 0
  · rw [if_neg hpp] at h
    cases hg : get_most_attractive_position (buildPP ant.position ant.pheromones
        (adjacent_positions ant.position ant.range) e []).1 i j with
    | none =>
      rw [hg] at h
      exact Except.noConfusion h
    | some t =>
      obtain ⟨pos, ph, m⟩ := t
      rw [hg] at h
      by_cases hmove : ph = "move"
      · subst hmove
        have happ : applyChoice ant (buildPP ant.position ant.pheromones
            (adjacent_positions ant.position ant.range) e []).2
            (some (pos, ("move"), m)) =
            .ok ({ ant with position := pos, actions := ant.actions ++ ["move"] },
              (buildPP ant.position ant.pheromones
                (adjacent_positions ant.position ant.range) e []).2) := by
          simp [applyChoice]
        rw [happ] at h
        obtain ⟨h1, _⟩ := okPairInj h
        subst h1
        show 0 ≤ pos.2.1
        obtain ⟨_, pheros, hmem, _⟩ := gmap_inv _ i j pos ("move") m hg
        have hkey : ∃ sc, (pos, sc) ∈ (buildPP ant.position ant.pheromones
            (adjacent_positions ant.position ant.range) e []).1 := ⟨pheros, hmem⟩
        rcases (buildPP_keys _ _ _ _ _ _).mp hkey with ⟨_, hfalse⟩ | hleg
        · simp at hfalse
        · exact adjacent_positions_y_nonneg _ _ _ hleg.1
      · by_cases hbuild : ph = "build"
        · subst hbuild
          by_cases hm : m = 0
          · have happ : applyChoice ant (buildPP ant.position ant.pheromones
                (adjacent_positions ant.position ant.range) e []).2
                (some (pos, ("build"), m)) = .ok (ant, (buildPP ant.position
                ant.pheromones (adjacent_positions ant.position ant.range) e []).2) := by
              simp [applyChoice, hm]
            rw [happ] at h
            obtain ⟨h1, _⟩ := okPairInj h
            subst h1
            exact hy
          · have happ : applyChoice ant (buildPP ant.position ant.pheromones
                (adjacent_positions ant.position ant.range) e []).2
                (some (pos, ("build"), m)) =
                .ok ({ ant with actions := ant.actions ++ ["build"] },
                  buildWrites pos ant.pheromones (buildPP ant.position ant.pheromones
                    (adjacent_positions ant.position ant.range) e []).2) := by
              simp [applyChoice, hm]
            rw [happ] at h
            obtain ⟨h1, _⟩ := okPairInj h
            subst h1
            exact hy
        · have happ : applyChoice ant (buildPP ant.position ant.pheromones
              (adjacent_positions ant.position ant.range) e []).2
              (some (pos, ph, m)) = .ok (ant, (buildPP ant.position ant.pheromones
              (adjacent_positions ant.position ant.range) e []).2) := by
            simp [applyChoice, hmove, hbuild]
          rw [happ] at h
          obtain ⟨h1, _⟩ := okPairInj h
          subst h1
          exact hy

/-- Boolean success test for an act result. -/
def isOkB {α : Type} : Except String α → Bool
  | .ok _ => true
  | .error _ => false

/-- The environment of a successful act result (default for the error case). -/
def exEnv (r : Except String (Ant × Environment)) (d : Environment) : Environment :=
  match r with
  | .ok (_, env) => env
  | .error _ => d

/-- The agent of a successful act result (default for the error case). -/
def exAnt (r : Except String (Ant × Environment)) (d : Ant) : Ant :=
  match r with
  | .ok (a, _) => a
  | .error _ => d

/-- Claim C5 (amended): for an Ant with no legal candidate, `act` performs the
random ground-plane fallback: when the current x and z coordinates are
non-negative it completes, repositioning to `(rx, 0, rz)` with `0 ≤ rx ≤ x`
and `0 ≤ rz ≤ z`, appending nothing to the action log and leaving every
observable environment read unchanged (reads do materialize empty cells); when
x is negative, or x is non-negative and z negative, `randint(0, ·)` raises and
`act` fails with a ValueError. -/
theorem c5_no_candidate_fallback (ant : Ant) (e : Environment) (i j r1 r2 : ℕ)
    (hleg : ∀ q ∈ adjacent_positions ant.position ant.range,
      ¬(envVal3 e q.1 q.2.1 q.2.2 = none ∧
        (q.2.1 = 0 ∨ ∃ n ∈ direct_neighbors q, envVal3 e n.1 n.2.1 n.2.2 ≠ none))) :
    (0 ≤ ant.position.1 ∧ 0 ≤ ant.position.2.2 →
      ∃ rx rz : ℤ,
        ant.act e i j r1 r2 = .ok ({ ant with position := (rx, 0, rz) },
          (buildPP ant.position ant.pheromones
            (adjacent_positions ant.position ant.range) e []).2) ∧
        0 ≤ rx ∧ rx ≤ ant.position.1 ∧ 0 ≤ rz ∧ rz ≤ ant.position.2.2 ∧
        viewEq (buildPP ant.position ant.pheromones
          (adjacent_positions ant.position ant.range) e []).2 e) ∧
    (ant.position.1 < 0 ∨ (0 ≤ ant.position.1 ∧ ant.position.2.2 < 0) →
      ant.act e i j r1 r2 = .error ("empty range for randrange")) := by
  have hpp : (buildPP ant.position ant.pheromones
      (adjacent_positions ant.position ant.range) e []).1 = [] := by
    cases hcase : (buildPP ant.position ant.pheromones
        (adjacent_positions ant.position ant.range) e []).1 with
    | nil => rfl
    | cons hd tl =>
      exfalso
      have hkey : ∃ sc, (hd.1, sc) ∈ (buildPP ant.position ant.pheromones
          (adjacent_positions ant.position ant.range) e []).1 := by
        refine ⟨hd.2, ?_⟩
        rw [hcase, Prod.mk.eta]
        exact List.mem_cons_self _ _
      rcases (buildPP_keys _ _ _ _ _ _).mp hkey with ⟨_, hfalse⟩ | hleg2
      · simp at hfalse
      · exact hleg hd.1 hleg2.1 ⟨hleg2.2.2.1, hleg2.2.2.2⟩
  constructor
  · rintro ⟨hx0, hz0⟩
    have hx : ¬ant.position.1 < 0 := not_lt.mpr hx0
    have hz : ¬ant.position.2.2 < 0 := not_lt.mpr hz0
    refine ⟨(r1 : ℤ) % (ant.position.1 + 1), (r2 : ℤ) % (ant.position.2.2 + 1),
      ?_, ?_, ?_, ?_, ?_, ?_⟩
    · unfold Ant.act selectionCore
      rw [if_pos hpp]
      unfold fallbackReposition randintZero
      rw [if_neg hx, if_neg hz]
    · exact Int.emod_nonneg _ (by omega)
    · have := Int.emod_lt_of_pos (r1 : ℤ) (show (0 : ℤ) < ant.position.1 + 1 by omega)
      omega
    · exact Int.emod_nonneg _ (by omega)
    · have := Int.emod_lt_of_pos (r2 : ℤ) (show (0 : ℤ) < ant.position.2.2 + 1 by omega)
      omega
    · exact viewEq_buildPP_snd _ _ _ _ _
  · rintro (hx | ⟨hx0, hz⟩)
    · unfold Ant.act selectionCore
      rw [if_pos hpp]
      unfold fallbackReposition randintZero
      rw [if_pos hx]
    · unfold Ant.act selectionCore
      rw [if_pos hpp]
      unfold fallbackReposition randintZero
      rw [if_neg (not_lt.mpr hx0), if_pos hz]

/-- An ant at `(-1, 2, 0)` knowing only `"move"`, used to exhibit the
fallback crash. -/
def c5ant : Ant := ⟨(-1, 2, 0), 1, 1/4, [], ["move"]⟩

/-- An ant at `(0, 2, 0)` knowing only `"move"` (from
`test_position_changed_when_no_possible_positions`). -/
def c5ant2 : Ant := ⟨(0, 2, 0), 1, 1/4, [], ["move"]⟩

/-- Claim C5 counterexample: an Ant at `(-1, 2, 0)` in the empty environment
has no legal candidate, and `act` raises (`randint(0, -1)` has an empty
range) instead of completing; and for an Ant at `(0, 2, 0)` the call
completes but the environment object is mutated (reads materialized empty
cells), so the environment is not left unchanged. -/
theorem c5_counterexample :
    Ant.act c5ant emptyEnv 0 0 0 0 = .error ("empty range for randrange") ∧
    isOkB (Ant.act c5ant2 emptyEnv 0 0 0 0) = true ∧
    exEnv (Ant.act c5ant2 emptyEnv 0 0 0 0) emptyEnv ≠ emptyEnv := by
  refine ⟨rfl, rfl, ?_⟩
  decide

/-- Claim C5 witness: the ant of
`test_position_changed_when_no_possible_positions` completes the fallback. -/
theorem c5_no_candidate_fallback_witness :
    ∃ rx rz : ℤ,
      Ant.act c5ant2 emptyEnv 0 0 0 0 = .ok ({ c5ant2 with position := (rx, 0, rz) },
        (buildPP c5ant2.position c5ant2.pheromones
          (adjacent_positions c5ant2.position c5ant2.range) emptyEnv []).2) ∧
      0 ≤ rx ∧ rx ≤ c5ant2.position.1 ∧ 0 ≤ rz ∧ rz ≤ c5ant2.position.2.2 ∧
      viewEq (buildPP c5ant2.position c5ant2.pheromones
        (adjacent_positions c5ant2.position c5ant2.range) emptyEnv []).2 emptyEnv :=
  (c5_no_candidate_fallback c5ant2 emptyEnv 0 0 0 0 (by decide)).1 (by decide)

theorem gmap_nil (i j : ℕ) : get_most_attractive_position [] i j = none := by
  simp [get_most_attractive_position, sortedPP, List.insertionSort]

/-- Claim C4 (amended): when the selection over the scored candidates wins
with signal `"build"`: if the winning score is nonzero, `_selection_action`
deposits value 1 for every recognized pheromone at the winning coordinate,
appends `"build"` to the action log and leaves the position unchanged; if the
winning score is zero, the position and the action log are unchanged and the
environment is observably unchanged (every read returns the same value),
though the scoring reads have materialized empty cells in its internal
state. -/
theorem c4_build_action (ant : Ant) (e : Environment) (positions : List Coord)
    (i j r1 r2 : ℕ) (pos : Coord) (m : ℚ)
    (hwin : get_most_attractive_position
      ((scoreAll ant.pheromones positions e []).1) i j = some (pos, ("build"), m)) :
    (m ≠ 0 → ant.selection_action e positions i j r1 r2 =
        .ok ({ ant with actions := ant.actions ++ ["build"] },
          buildWrites pos ant.pheromones (scoreAll ant.pheromones positions e []).2) ∧
      ∀ p ∈ ant.pheromones,
        envVal4 (buildWrites pos ant.pheromones
            (scoreAll ant.pheromones positions e []).2) pos.1 pos.2.1 pos.2.2 p =
          some 1) ∧
    (m = 0 → ant.selection_action e positions i j r1 r2 =
        .ok (ant, (scoreAll ant.pheromones positions e []).2) ∧
      viewEq (scoreAll ant.pheromones positions e []).2 e) := by
  have hppne : (scoreAll ant.pheromones positions e []).1 ≠ [] := by
    intro hnil
    rw [hnil, gmap_nil] at hwin
    exact Option.noConfusion hwin
  have hact : ant.selection_action e positions i j r1 r2 =
      applyChoice ant (scoreAll ant.pheromones positions e []).2
        (some (pos, ("build"), m)) := by
    unfold Ant.selection_action selectionCore
    rw [if_neg hppne, hwin]
  constructor
  · intro hm
    constructor
    · rw [hact]
      simp [applyChoice, hm]
    · exact fun p hp => envVal4_buildWrites_of_mem pos ant.pheromones _ p hp
  · intro hm
    constructor
    · rw [hact]
      simp [applyChoice, hm]
    · exact viewEq_scoreAll_snd ant.pheromones positions e []

/-- An ant at the origin with the default pheromones, used for the concrete
build-selection scenario. -/
def c4ant : Ant := ⟨(0, 0, 0), 1, 1/4, [], ["move", "build"]⟩

theorem c4sum_eval (p : String) :
    sumPheroVal emptyEnv (direct_neighbors ((1 : ℤ), (0 : ℤ), (0 : ℤ))) p = 0 := by
  simp [sumPheroVal, direct_neighbors_eq, envVal4, Environment.getCell, emptyEnv,
    alGet]

theorem c4att_eval :
    (pheromone_attractiveness ((1 : ℤ), (0 : ℤ), (0 : ℤ)) emptyEnv
      ["move", "build"]).1 = [(("move"), (0 : ℚ)), (("build"), (0 : ℚ))] := by
  unfold pheromone_attractiveness
  rw [pheroLoop, pheroLoop, pheroLoop]
  have h1 : (sumPheroAcc (direct_neighbors ((1 : ℤ), (0 : ℤ), (0 : ℤ))) ("move")
      emptyEnv 0).1 = 0 := by
    rw [sumPheroAcc_fst, c4sum_eval, zero_add]
  have h2 : (sumPheroAcc (direct_neighbors ((1 : ℤ), (0 : ℤ), (0 : ℤ))) ("build")
      (sumPheroAcc (direct_neighbors ((1 : ℤ), (0 : ℤ), (0 : ℤ))) ("move")
        emptyEnv 0).2 0).1 = 0 := by
    rw [sumPheroAcc_fst, zero_add,
      sumPheroVal_congr (viewEq_sumPheroAcc_snd _ _ _ _), c4sum_eval]
  rw [h1, h2]
  simp [alSet]

theorem c4pp_eval :
    (scoreAll ["move", "build"] [((1 : ℤ), (0 : ℤ), (0 : ℤ))] emptyEnv []).1 =
      [(((1 : ℤ), (0 : ℤ), (0 : ℤ)), [(("move"), (0 : ℚ)), (("build"), (0 : ℚ))])] := by
  rw [scoreAll, scoreAll]
  show alSet [] ((1 : ℤ), (0 : ℤ), (0 : ℤ))
    (pheromone_attractiveness ((1 : ℤ), (0 : ℤ), (0 : ℤ)) emptyEnv
      ["move", "build"]).1 = _
  rw [c4att_eval]
  rfl

theorem c4gmap_eval :
    get_most_attractive_position
      ((scoreAll ["move", "build"] [((1 : ℤ), (0 : ℤ), (0 : ℤ))] emptyEnv []).1) 0 1 =
      some (((1 : ℤ), (0 : ℤ), (0 : ℤ)), ("build"), 0) := by
  rw [c4pp_eval]
  have hsort : sortedPP [(((1 : ℤ), (0 : ℤ), (0 : ℤ)),
      [(("move"), (0 : ℚ)), (("build"), (0 : ℚ))])] =
      [(((1 : ℤ), (0 : ℤ), (0 : ℤ)), [(("move"), (0 : ℚ)), (("build"), (0 : ℚ))])] := by
    simp [sortedPP, List.insertionSort]
  have hcell : cellMax [(("move"), (0 : ℚ)), (("build"), (0 : ℚ))] = 0 := by
    simp [cellMax]
  have hlm : lastMax [(((1 : ℤ), (0 : ℤ), (0 : ℤ)),
      [(("move"), (0 : ℚ)), (("build"), (0 : ℚ))])] = 0 := by
    rw [lastMax, hsort]
    simp [hcell]
  have htied : tiedItems [(((1 : ℤ), (0 : ℤ), (0 : ℤ)),
      [(("move"), (0 : ℚ)), (("build"), (0 : ℚ))])] =
      [(((1 : ℤ), (0 : ℤ), (0 : ℤ)), [(("move"), (0 : ℚ)), (("build"), (0 : ℚ))])] := by
    rw [tiedItems, hsort, hlm]
    simp [List.filter, hcell]
  have htp : tiedPheros [(("move"), (0 : ℚ)), (("build"), (0 : ℚ))] 0 =
      [("move"), ("build")] := by
    simp [tiedPheros, List.filter]
  unfold get_most_attractive_position
  rw [hsort]
  simp only [htied, hlm]
  simp [choiceModel, htp]

theorem materialize_ne_empty (X : Environment) (a b c : Comp) :
    X.materialize a b c ≠ emptyEnv := by
  intro hcon
  unfold Environment.materialize at hcon
  have hc := congrArg Environment.cells hcon
  simp only [emptyEnv] at hc
  unfold ddUpd at hc
  cases halg : alGet X.cells a with
  | some v =>
    rw [halg] at hc
    exact alSet_ne_nil _ _ _ hc
  | none =>
    rw [halg] at hc
    simp at hc

theorem c4env_ne :
    (scoreAll ["move", "build"] [((1 : ℤ), (0 : ℤ), (0 : ℤ))] emptyEnv []).2 ≠
      emptyEnv := by
  simp only [scoreAll, scoreInsert, pheromone_attractiveness, pheroLoop, sumPheroAcc,
    envGet4, Environment.get4, direct_neighbors_eq]
  exact materialize_ne_empty _ _ _ _

/-- Claim C4 counterexample: an ant at the origin scoring the single ground
candidate `(1, 0, 0)` in the empty environment wins with signal `"build"` at
score 0; `_selection_action` leaves the position and log unchanged, but the
environment is not left unchanged — the scoring reads materialized empty
cells in its internal state. -/
theorem c4_counterexample :
    get_most_attractive_position
        ((scoreAll c4ant.pheromones [((1 : ℤ), (0 : ℤ), (0 : ℤ))] emptyEnv []).1) 0 1 =
      some (((1 : ℤ), (0 : ℤ), (0 : ℤ)), ("build"), 0) ∧
    Ant.selection_action c4ant emptyEnv [((1 : ℤ), (0 : ℤ), (0 : ℤ))] 0 1 0 0 =
      .ok (c4ant,
        (scoreAll c4ant.pheromones [((1 : ℤ), (0 : ℤ), (0 : ℤ))] emptyEnv []).2) ∧
    (scoreAll c4ant.pheromones [((1 : ℤ), (0 : ℤ), (0 : ℤ))] emptyEnv []).2 ≠
      emptyEnv := by
  have hph : c4ant.pheromones = ["move", "build"] := rfl
  have hwin : get_most_attractive_position
      ((scoreAll c4ant.pheromones [((1 : ℤ), (0 : ℤ), (0 : ℤ))] emptyEnv []).1) 0 1 =
      some (((1 : ℤ), (0 : ℤ), (0 : ℤ)), ("build"), 0) := by
    rw [hph]
    exact c4gmap_eval
  refine ⟨hwin, ?_, ?_⟩
  · have hppne : (scoreAll c4ant.pheromones
        [((1 : ℤ), (0 : ℤ), (0 : ℤ))] emptyEnv []).1 ≠ [] := by
      rw [hph, c4pp_eval]
      simp
    unfold Ant.selection_action selectionCore
    rw [if_neg hppne, hwin]
    simp [applyChoice]
  · rw [hph]
    exact c4env_ne

/-- Claim C4 witness: the zero-score build branch at the concrete scenario of
the counterexample — position, log and observable environment unchanged. -/
theorem c4_build_action_witness :
    Ant.selection_action c4ant emptyEnv [((1 : ℤ), (0 : ℤ), (0 : ℤ))] 0 1 0 0 =
      .ok (c4ant,
        (scoreAll c4ant.pheromones [((1 : ℤ), (0 : ℤ), (0 : ℤ))] emptyEnv []).2) ∧
    viewEq (scoreAll c4ant.pheromones [((1 : ℤ), (0 : ℤ), (0 : ℤ))] emptyEnv []).2
      emptyEnv :=
  (c4_build_action c4ant emptyEnv [((1 : ℤ), (0 : ℤ), (0 : ℤ))] 0 1 0 0
    ((1 : ℤ), (0 : ℤ), (0 : ℤ)) 0 c4gmap_eval).2 rfl

/-- An ant at `(0, 2, 0)` knowing only `"move"`, for the `act` invariant
witness. -/
def c10ant : Ant := ⟨(0, 2, 0), 1, 1/4, [], ["move"]⟩

/-- Claim C10 witness: a completed `act` call (the fallback repositioning of
an ant with no legal candidates) keeps `y` non-negative. -/
theorem c10_y_invariant_witness :
    0 ≤ (exAnt (Ant.act c10ant emptyEnv 0 0 0 0) c10ant).position.2.1 :=
  c10_y_invariant c10ant emptyEnv 0 0 0 0
    (exAnt (Ant.act c10ant emptyEnv 0 0 0 0) c10ant)
    (exEnv (Ant.act c10ant emptyEnv 0 0 0 0) emptyEnv)
    (by decide) (by rfl)
